import Mathlib

/-!
# Verification of the deterministic anonymization engine

Shallow embedding of `app/anonymization/anonymizer.py` (class `Anonymizer`)
together with its data model (`app/anonymization/models.py`).

Conventions of the embedding:

* Python strings are modelled as `List Char`; indices are `Nat`.
* `unicodedata.normalize("NFC", ·)` and the ICU transliterator
  (`icu.Transliterator.createInstance("Any-Latin; Latin-ASCII; Lower")`) are
  external capabilities (spec §6); they are passed as function parameters
  `nfc` and `translit`.
* `difflib.SequenceMatcher(...).get_opcodes()` is a Python standard-library
  facility; the spec (§4.2, §9) treats it as an abstract "align two sequences,
  emit equal/insert/delete/replace runs" capability not tied to a particular
  library.  It is modelled as a function parameter producing opcode runs.
* Python character predicates (`str.isalnum`, `str.lower`, `str.strip`,
  `\w`, `\d`, `\s`) are modelled exactly on the ASCII fragment, which is the
  alphabet of the transliterated ("Latin-ASCII; Lower") working text.
* Scanning `while` loops are realised with an explicit fuel argument so that
  every definition is structurally recursive and kernel-computable; the fuel
  is always initialised large enough that it never runs out.
-/

namespace Anonymizer

/-- Entity types of the detector (spec §3: enum {PERSON, EMAIL, PHONE, ID}). -/
inductive EntityType where
  | PERSON
  | EMAIL
  | PHONE
  | ID
deriving DecidableEq, Repr

/-- The placeholder prefix for an entity type (`entity_type` strings of the code). -/
def EntityType.name : EntityType → String
  | .PERSON => "PERSON"
  | .EMAIL => "EMAIL"
  | .PHONE => "PHONE"
  | .ID => "ID"

/-- `_Detection`: a detected PII span in the transliterated text
(`anonymizer.py`, lines 31-37). -/
structure Detection where
  entityType : EntityType
  transStart : Nat
  transEnd : Nat
deriving DecidableEq, Repr

/-- `Artifact` (`models.py`): a single PII replacement record. -/
structure Artifact where
  type : EntityType
  original : List Char
  replacement : List Char
deriving DecidableEq, Repr

/-- `AnonymizationResult` (`models.py`).  `transliteration_mapping` has
`default_factory=list`, i.e. it defaults to `[]`. -/
structure AnonymizationResult where
  anonymizedText : List Char
  artifacts : List Artifact
  translitMapping : List Nat := []
deriving DecidableEq, Repr

/-- A span `(entity_type, orig_start, orig_end)` in original-text coordinates. -/
abbrev Span := EntityType × Nat × Nat

/-! ## Python character primitives (exact on ASCII) -/

/-- Model of Python `str.isalnum` on the ASCII fragment. -/
def pyIsAlnum (c : Char) : Bool := c.isAlphanum

/-- Python regex `\w` (word character): alphanumeric or underscore. -/
def pyIsWord (c : Char) : Bool := pyIsAlnum c || c = '_'

/-- Python regex `\d` (digit). -/
def pyIsDigit (c : Char) : Bool := c.isDigit

/-- Python `str.isspace` / regex `\s` on the ASCII fragment. -/
def pyIsSpace (c : Char) : Bool :=
  c = ' ' || c = '\t' || c = '\n' || c = '\x0d' || c = '\x0b' || c = '\x0c'

/-- Model of Python `str.lower` (exact on ASCII). -/
def pyLower (s : List Char) : List Char := s.map Char.toLower

/-- Model of Python `str.strip` (remove leading and trailing whitespace). -/
def pyStrip (s : List Char) : List Char :=
  ((s.dropWhile pyIsSpace).reverse.dropWhile pyIsSpace).reverse

/-- Model of the Python slice `s[a:b]` for `Nat` bounds (clamping semantics). -/
def pySlice (s : List Char) (a b : Nat) : List Char := (s.take b).drop a

/-- Model of Python `str.split()` (split on whitespace runs, drop empties). -/
def pySplit (s : List Char) : List (List Char) :=
  go s []
where
  /-- Accumulating scanner: `cur` holds the current word reversed. -/
  go : List Char → List Char → List (List Char)
    | [], cur => if cur = [] then [] else [cur.reverse]
    | c :: cs, cur =>
      if pyIsSpace c then
        (if cur = [] then go cs [] else cur.reverse :: go cs [])
      else go cs (c :: cur)

/-! ## Step 2 — transliteration with character mapping -/

/-- One opcode run of the sequence aligner, as produced by
`difflib.SequenceMatcher.get_opcodes()`: a tag plus half-open ranges
`[a1, a2)` of the first and `[b1, b2)` of the second sequence.  The code only
distinguishes `equal` from the rest. -/
structure Opcode where
  isEqual : Bool
  a1 : Nat
  a2 : Nat
  b1 : Nat
  b2 : Nat
deriving DecidableEq, Repr

/-- The external aligner capability: given the full-string and per-character
transliterations, produce the opcode runs (spec §4.2 step 4, §9). -/
abbrev OpcodeSource := List Char → List Char → List Opcode

/-- `Anonymizer._transliterate_per_character` (lines 192-199): transliterate
each character separately, recording for every output character the index of
the source character that produced it.  `i` is the index of the first
character of the remaining input. -/
def transliteratePerCharacter (translit : List Char → List Char) :
    List Char → Nat → List Char × List Nat
  | [], _ => ([], [])
  | c :: cs, i =>
    let part := translit [c]
    let rest := transliteratePerCharacter translit cs (i + 1)
    (part ++ rest.1, List.replicate part.length i ++ rest.2)

/-- One opcode of the loop of `_align_full_to_per_character`
(lines 218-227): for an `equal` run write the aligned indices, otherwise
write the clamped fallback index and mark the positions uncertain. -/
def alignStep (maxPerIndex : Nat) (st : List Nat × List Bool) (op : Opcode) :
    List Nat × List Bool :=
  if op.isEqual then
    ((List.range (op.a2 - op.a1)).foldl
      (fun m shift => m.set (op.a1 + shift) (op.b1 + shift)) st.1,
     st.2)
  else
    let fallback := min op.b1 maxPerIndex
    (List.range (op.a2 - op.a1)).foldl
      (fun st2 shift =>
        (st2.1.set (op.a1 + shift) fallback,
         st2.2.set (op.a1 + shift) true))
      st

/-- `Anonymizer._align_full_to_per_character` (lines 201-229): initialise
`full_to_per_char` with zeros and `uncertain_positions` with `False`, then
apply `alignStep` for every opcode.  Out-of-range writes cannot occur for
genuine opcode sequences; `List.set` ignores them, preserving the lengths. -/
def alignFullToPerCharacter (opcodes : List Opcode)
    (full perChar : List Char) : List Nat × List Bool :=
  if full = [] then ([], [])
  else
    opcodes.foldl (alignStep (perChar.length - 1))
      (List.replicate full.length 0, List.replicate full.length false)

/-- One iteration of the composing loop of
`Anonymizer._compose_full_to_original_mapping` (lines 252-261).  The state is
the output built so far in reverse order together with `last_valid_orig`;
`full_idx > 0` is equivalent to the accumulator being nonempty. -/
def composeStep (maxOrigIndex maxPerIndex : Nat) (perCharToOrig : List Nat)
    (st : List Nat × Nat) (pu : Nat × Bool) : List Nat × Nat :=
  let boundedPerIdx := min (max pu.1 0) maxPerIndex
  let mappedOrig := perCharToOrig.getD boundedPerIdx 0
  let bounded0 := min (max mappedOrig 0) maxOrigIndex
  let bounded1 := if pu.2 && !st.1.isEmpty then max bounded0 st.2 else bounded0
  let bounded2 :=
    match st.1 with
    | [] => bounded1
    | prev :: _ => max bounded1 prev
  (bounded2 :: st.1, bounded2)

/-- `Anonymizer._compose_full_to_original_mapping` (lines 231-263). -/
def composeFullToOriginalMapping (fullToPerChar : List Nat)
    (uncertain : List Bool) (perCharToOrig : List Nat)
    (originalLength : Nat) : List Nat :=
  if fullToPerChar = [] then []
  else if originalLength = 0 then List.replicate fullToPerChar.length 0
  else if perCharToOrig = [] then List.replicate fullToPerChar.length 0
  else
    let maxOrigIndex := originalLength - 1
    let maxPerIndex := perCharToOrig.length - 1
    ((fullToPerChar.zip uncertain).foldl
      (composeStep maxOrigIndex maxPerIndex perCharToOrig) ([], 0)).1.reverse

/-- `Anonymizer._transliterate_with_mapping` (lines 164-190). -/
def transliterateWithMapping (translit : List Char → List Char)
    (opcodes : OpcodeSource) (text : List Char) : List Char × List Nat :=
  if text = [] then ([], [])
  else
    let full := translit text
    let perChar := transliteratePerCharacter translit text 0
    if full = perChar.1 then (full, perChar.2)
    else
      let aligned := alignFullToPerCharacter (opcodes full perChar.1) full perChar.1
      (full, composeFullToOriginalMapping aligned.1 aligned.2 perChar.2 text.length)

/-! ## Step 3a — dictionary detection -/

/-- Does `w` occur in `s` at index `i`?  Mirrors a successful
`s.find(w, ...) == i` hit: the occurrence must fit inside `s`. -/
def occursAt (s w : List Char) (i : Nat) : Bool :=
  decide (i + w.length ≤ s.length) && decide ((s.drop i).take w.length = w)

/-- Model of `s.find(w, start)` (first occurrence index at or after `start`,
or `none`): scan indices upward while an occurrence can still fit. -/
def findOccAux (s w : List Char) (fuel : Nat) (i : Nat) : Option Nat :=
  match fuel with
  | 0 => none
  | fuel + 1 =>
    if i + w.length ≤ s.length then
      if occursAt s w i then some i else findOccAux s w fuel (i + 1)
    else none

/-- `s.find(w, start)` with adequate fuel. -/
def findOcc (s w : List Char) (start : Nat) : Option Nat :=
  findOccAux s w (s.length + 1 - start) start

/-- The word-boundary test of `_detect_dictionary` (lines 288-290): the
character immediately before the match (if any) and immediately after it
(if any) must not be alphanumeric. -/
def boundaryOk (s : List Char) (idx e : Nat) : Bool :=
  (decide (idx = 0) || !pyIsAlnum (s.getD (idx - 1) ' ')) &&
  (decide (e = s.length) || !pyIsAlnum (s.getD e ' '))

/-- The `while True` find-loop of `_detect_dictionary` (lines 282-293) for one
dictionary word: locate each occurrence from `start` on, keep it when the word
boundaries are clean, and resume the search one character after the
occurrence's start. -/
def detectWordGo (s w : List Char) (fuel : Nat) (start : Nat) : List Detection :=
  match fuel with
  | 0 => []
  | fuel + 1 =>
    match findOcc s w start with
    | none => []
    | some idx =>
      let e := idx + w.length
      (if boundaryOk s idx e then [⟨.PERSON, idx, e⟩] else []) ++
        detectWordGo s w fuel (idx + 1)

/-- All dictionary detections contributed by one word. -/
def detectWord (s w : List Char) : List Detection :=
  detectWordGo s w (s.length + 1) 0

/-- `Anonymizer._detect_dictionary` (lines 269-295).  The Python dictionary is
a `set`; the model receives it as the list of its elements in the (arbitrary)
iteration order.  Theorem `anonymize_dict_perm` shows the final result does
not depend on that order. -/
def detectDictionary (transliterated : List Char)
    (dictionary : List (List Char)) : List Detection :=
  if dictionary = [] then []
  else
    dictionary.flatMap fun word =>
      if word = [] then [] else detectWord transliterated word

/-! ## Step 3b — regex detection

The three class-variable patterns `_EMAIL_RE`, `_PHONE_RE`, `_ID_RE`
(lines 50-60) are concrete regular expressions; each is modelled by a
hand-rolled matcher implementing Python `re` leftmost/greedy-with-backtracking
semantics for exactly that pattern, and `finditer` is the scan driver. -/

/-- Length of the maximal run of characters satisfying `p` starting at `i`. -/
def runLen (p : Char → Bool) (s : List Char) (i : Nat) : Nat :=
  ((s.drop i).takeWhile p).length

/-- Character class `[\w.\-+]` of the email local part. -/
def emailLocalChar (c : Char) : Bool := pyIsWord c || c = '.' || c = '-' || c = '+'

/-- Character class `[\w.\-]` of the email domain part. -/
def emailDomainChar (c : Char) : Bool := pyIsWord c || c = '.' || c = '-'

/-- Try to match `_EMAIL_RE = [\w.\-+]+@[\w.\-]+\.\w{2,}` at position `i`;
return the end of the match.  The greedy `+` runs stop at the first non-class
character, so `@` must follow the maximal local run; inside the domain run the
literal `.` backtracks from the right, and `\w{2,}` then extends greedily. -/
def emailMatchAt (s : List Char) (i : Nat) : Option Nat :=
  let r1 := runLen emailLocalChar s i
  if r1 = 0 then none
  else if s.getD (i + r1) ' ' ≠ '@' then none
  else
    let b := i + r1 + 1
    let r2 := runLen emailDomainChar s b
    if r2 = 0 then none
    else
      match (List.range r2).reverse.find? (fun c2 =>
          decide (1 ≤ c2) && decide (s.getD (b + c2) ' ' = '.') &&
          decide (2 ≤ runLen pyIsWord s (b + c2 + 1))) with
      | none => none
      | some c2 => some (b + c2 + 1 + runLen pyIsWord s (b + c2 + 1))

/-- Character class `[\d\s\-()]` of the phone middle part. -/
def phoneMidChar (c : Char) : Bool :=
  pyIsDigit c || pyIsSpace c || c = '-' || c = '(' || c = ')'

/-- Try to match `_PHONE_RE = (?<!\w)\+?\d[\d\s\-()]{5,18}\d(?!\w)` at
position `i`.  The optional `+` can only help when a digit follows it; the
counted class backtracks from its greedy maximum until the final digit and the
negative lookahead are satisfied. -/
def phoneMatchAt (s : List Char) (i : Nat) : Option Nat :=
  if i ≠ 0 && pyIsWord (s.getD (i - 1) ' ') then none
  else
    let j := if s.getD i ' ' = '+' && decide (i < s.length) then i + 1 else i
    if j ≥ s.length then none
    else if !pyIsDigit (s.getD j ' ') then none
    else
      let m := runLen phoneMidChar s (j + 1)
      match (List.range (min m 18 + 1)).reverse.find? (fun c =>
          decide (5 ≤ c) && pyIsDigit (s.getD (j + 1 + c) ' ') &&
          decide (j + 1 + c < s.length) &&
          (decide (j + 2 + c = s.length) || !pyIsWord (s.getD (j + 2 + c) ' '))) with
      | none => none
      | some c => some (j + 2 + c)

/-- Try to match `_ID_RE = \b\d{6,20}\b` at position `i`: a word boundary,
6-20 digits (backtracking from the greedy maximum), and a word boundary. -/
def idMatchAt (s : List Char) (i : Nat) : Option Nat :=
  if i ≠ 0 && pyIsWord (s.getD (i - 1) ' ') then none
  else
    let d := runLen pyIsDigit s i
    match (List.range (min d 20 + 1)).reverse.find? (fun c =>
        decide (6 ≤ c) &&
        (decide (i + c = s.length) || !pyIsWord (s.getD (i + c) ' '))) with
    | none => none
    | some c => some (i + c)

/-- `pattern.finditer(s)`: try each start position left to right; after a
match continue at its end (all three patterns only produce nonempty
matches). -/
def finditerGo (matchAt : List Char → Nat → Option Nat) (s : List Char)
    (fuel : Nat) (i : Nat) : List (Nat × Nat) :=
  match fuel with
  | 0 => []
  | fuel + 1 =>
    if i < s.length then
      match matchAt s i with
      | some e => (i, e) :: finditerGo matchAt s fuel (max e (i + 1))
      | none => finditerGo matchAt s fuel (i + 1)
    else []

/-- All matches of one pattern in `s`. -/
def finditer (matchAt : List Char → Nat → Option Nat) (s : List Char) :
    List (Nat × Nat) :=
  finditerGo matchAt s s.length 0

/-- `_REGEX_RULES` (lines 65-69): the fixed ordered rule set. -/
def regexRules : List (EntityType × (List Char → Nat → Option Nat)) :=
  [(.EMAIL, emailMatchAt), (.PHONE, phoneMatchAt), (.ID, idMatchAt)]

/-- `Anonymizer._detect_regex` (lines 301-307). -/
def detectRegex (transliterated : List Char) : List Detection :=
  regexRules.flatMap fun rule =>
    (finditer rule.2 transliterated).map fun m => ⟨rule.1, m.1, m.2⟩

/-! ## Dictionary normalization -/

/-- Character class `[a-z0-9']` kept by `_DICT_STRIP_PUNCT_RE` (lines 61-63). -/
def dictTokenChar (c : Char) : Bool :=
  (decide ('a' ≤ c) && decide (c ≤ 'z')) ||
  (decide ('0' ≤ c) && decide (c ≤ '9')) || c = Char.ofNat 39

/-- `_DICT_STRIP_PUNCT_RE.sub("", token)`: strip the leading and the trailing
run of characters outside `[a-z0-9']`. -/
def cleanToken (tok : List Char) : List Char :=
  ((tok.dropWhile (fun c => !dictTokenChar c)).reverse.dropWhile
    (fun c => !dictTokenChar c)).reverse

/-- `Anonymizer._normalize_dictionary` (lines 146-158).  The Python code
accumulates the cleaned tokens into a `set`; the model keeps them as a
duplicate-free list (`dedup` of the contribution order) — one particular
enumeration of that set.  The enumeration order is immaterial by
`anonymize_dict_perm`. -/
def normalizeDictionary (nfc translit : List Char → List Char)
    (dictionary : List (List Char)) : List (List Char) :=
  (dictionary.flatMap fun item =>
    if item = [] then []
    else
      (pySplit (pyLower (translit (nfc item)))).filterMap fun token =>
        let cleaned := cleanToken token
        if cleaned = [] then none else some cleaned).dedup

/-! ## Step 4 — map spans to original text and merge overlaps -/

/-- `Anonymizer._detection_to_original_span` (lines 313-324). -/
def detectionToOriginalSpan (d : Detection) (transToOrig : List Nat) :
    Option (Nat × Nat) :=
  if d.transStart ≥ transToOrig.length || d.transEnd < 1 then none
  else
    let origStart := transToOrig.getD d.transStart 0
    let lastTransIdx := min (d.transEnd - 1) (transToOrig.length - 1)
    some (origStart, transToOrig.getD lastTransIdx 0 + 1)

/-- The sort key order of `sorted(spans, key=lambda x: (x[1], -x[2]))`:
`orig_start` ascending, then `orig_end` descending. -/
def spanLe (a b : Span) : Prop :=
  a.2.1 < b.2.1 ∨ (a.2.1 = b.2.1 ∧ b.2.2 ≤ a.2.2)

instance : DecidableRel spanLe := fun a b => by
  unfold spanLe; infer_instance

instance : IsTotal Span spanLe where
  total a b := by
    rcases Nat.lt_trichotomy a.2.1 b.2.1 with h | h | h
    · exact Or.inl (Or.inl h)
    · rcases Nat.le_total b.2.2 a.2.2 with h2 | h2
      · exact Or.inl (Or.inr ⟨h, h2⟩)
      · exact Or.inr (Or.inr ⟨h.symm, h2⟩)
    · exact Or.inr (Or.inl h)

instance : IsTrans Span spanLe where
  trans a b c hab hbc := by
    rcases hab with h | ⟨e, h⟩ <;> rcases hbc with h2 | ⟨e2, h2⟩
    · exact Or.inl (h.trans h2)
    · exact Or.inl (e2 ▸ h)
    · exact Or.inl (e ▸ h2)
    · exact Or.inr ⟨e.trans e2, h2.trans h⟩

/-- `sorted(spans, key=lambda x: (x[1], -x[2]))`: Python's `sorted` is a
stable sort by key; the stable insertion sort computes the same function. -/
def sortSpans (spans : List Span) : List Span := spans.insertionSort spanLe

/-- The left-to-right sweep of `_merge_overlapping_spans` (lines 332-338).
`acc` holds the accepted spans in reverse order, so `merged[-1]` is its
head. -/
def mergeLoop : List Span → List Span → List Span
  | acc, [] => acc.reverse
  | [], sp :: rest => mergeLoop [sp] rest
  | (pt, ps, pe) :: accTail, (t, s, e) :: rest =>
    if s < pe then mergeLoop ((pt, ps, max pe e) :: accTail) rest
    else mergeLoop ((t, s, e) :: (pt, ps, pe) :: accTail) rest

/-- `Anonymizer._merge_overlapping_spans` (lines 326-339). -/
def mergeOverlappingSpans (spans : List Span) : List Span :=
  mergeLoop [] (sortSpans spans)

/-- `Anonymizer._map_to_original` (lines 341-356). -/
def mapToOriginal (detections : List Detection) (transToOrig : List Nat) :
    List Span :=
  mergeOverlappingSpans <|
    detections.filterMap fun d =>
      (detectionToOriginalSpan d transToOrig).map fun se => (d.entityType, se.1, se.2)

/-! ## Step 5 — replacement and artifact generation -/

/-- Association-list lookup (model of Python `dict` access; keys are inserted
at the front, and reinsertion semantics coincide because the first hit
wins). -/
def alookup {K V : Type} [DecidableEq K] (k : K) : List (K × V) → Option V
  | [] => none
  | kv :: rest => if kv.1 = k then some kv.2 else alookup k rest

/-- The key of a span in the placeholder map:
`(entity_type, original[start:end].strip().lower())` (lines 376-377, 389). -/
def keyOf (original : List Char) (sp : Span) : EntityType × List Char :=
  (sp.1, pyLower (pyStrip (pySlice original sp.2.1 sp.2.2)))

/-- The placeholder string `f"{entity_type}_{counter}"` (line 381). -/
def placeholderStr (t : EntityType) (counter : Nat) : List Char :=
  (t.name ++ "_" ++ toString counter).toList

/-- One iteration of the first pass of `_replace` (lines 375-381): assign a
fresh placeholder to each not-yet-seen `(type, value)` key, with a per-type
counter starting at 1. -/
def pass1Step (original : List Char)
    (st : List (EntityType × Nat) × List ((EntityType × List Char) × List Char))
    (sp : Span) :
    List (EntityType × Nat) × List ((EntityType × List Char) × List Char) :=
  let key := keyOf original sp
  if (alookup key st.2).isSome then st
  else
    let counter := (alookup sp.1 st.1).getD 0 + 1
    ((sp.1, counter) :: st.1, (key, placeholderStr sp.1 counter) :: st.2)

/-- First pass of `_replace`: the final `(counters, entity_map)` state. -/
def pass1 (original : List Char) (spans : List Span) :
    List (EntityType × Nat) × List ((EntityType × List Char) × List Char) :=
  spans.foldl (pass1Step original) ([], [])

/-- Second pass of `_replace` (lines 384-401): process spans rightmost-first
(`reversed(spans)` ≍ `foldr`), splice the placeholder into the evolving text
and record one artifact per span; the artifact list comes out left-to-right
(the code reverses its accumulator at the end). -/
def pass2 (original : List Char)
    (entityMap : List ((EntityType × List Char) × List Char))
    (spans : List Span) : List Char × List Artifact :=
  spans.foldr
    (fun sp st =>
      let originalValue := pySlice original sp.2.1 sp.2.2
      let placeholder := (alookup (keyOf original sp) entityMap).getD []
      (st.1.take sp.2.1 ++ placeholder ++ st.1.drop sp.2.2,
       ⟨sp.1, originalValue, placeholder⟩ :: st.2))
    (original, [])

/-- `Anonymizer._replace` (lines 362-403). -/
def replaceSpans (original : List Char) (spans : List Span) :
    AnonymizationResult :=
  let entityMap := (pass1 original spans).2
  let res := pass2 original entityMap spans
  { anonymizedText := res.1, artifacts := res.2 }

/-! ## The pipeline -/

/-- `Anonymizer._run` (lines 107-144), parameterized by the external
capabilities (`nfc` = `unicodedata.normalize("NFC", ·)`, `translit` = the ICU
transliterator, `opcodes` = the sequence aligner). -/
def run (nfc translit : List Char → List Char) (opcodes : OpcodeSource)
    (text : List Char) (dictionary : List (List Char)) : AnonymizationResult :=
  if text = [] then { anonymizedText := [], artifacts := [] }
  else
    let normalized := nfc text
    let tm := transliterateWithMapping translit opcodes normalized
    let normalizedDictionary := normalizeDictionary nfc translit dictionary
    let detections :=
      detectDictionary tm.1 normalizedDictionary ++ detectRegex tm.1
    if detections = [] then
      { anonymizedText := normalized, artifacts := [], translitMapping := tm.2 }
    else
      let originalSpans := mapToOriginal detections tm.2
      { replaceSpans normalized originalSpans with translitMapping := tm.2 }

/-- Modelled from the spec: `AnonymizationError` (§7 "AnonymizationFailure").
The class lives in `app/anonymization/exceptions.py`, which is not under
`src/`; per §7 it is the single error kind of the engine.  `otherError`
stands for any other Python exception, carrying its message. -/
inductive PyError where
  | anonymizationError (msg : String)
  | otherError (msg : String)
deriving DecidableEq, Repr

/-- The `try/except` wrapper of `Anonymizer.anonymize` (lines 96-101) as a
function of the body's outcome: an `AnonymizationError` propagates unchanged,
any other exception is wrapped with the descriptive message
`"Anonymization failed: ..."`. -/
def anonymizeGuard (body : Except PyError AnonymizationResult) :
    Except PyError AnonymizationResult :=
  match body with
  | .ok r => .ok r
  | .error (.anonymizationError msg) => .error (.anonymizationError msg)
  | .error (.otherError msg) =>
    .error (.anonymizationError ("Anonymization failed: " ++ msg))

/-- `Anonymizer.anonymize` (lines 80-101).  `sensitive_words or []` is the
identity on the list model; the body `_run` is total in the embedding, so the
guard receives its value. -/
def anonymize (nfc translit : List Char → List Char) (opcodes : OpcodeSource)
    (text : List Char) (sensitiveWords : List (List Char)) :
    Except PyError AnonymizationResult :=
  anonymizeGuard (.ok (run nfc translit opcodes text sensitiveWords))

/-! ## Specification-side helper definitions (used in theorem statements) -/

/-- Does `w` occur anywhere in `s` (Python `w in s`)? -/
def containsSub (s w : List Char) : Bool :=
  (List.range (s.length + 1)).any (occursAt s w)

/-- The point `p` lies inside one of the spans (half-open intervals). -/
def covers (spans : List Span) (p : Nat) : Prop :=
  ∃ sp ∈ spans, sp.2.1 ≤ p ∧ p < sp.2.2

instance (spans : List Span) (p : Nat) : Decidable (covers spans p) := by
  unfold covers; infer_instance

/-- `a` starts no later than `b` and ends before `b` starts: the ordering and
disjointness relation of the merged output. -/
def spanDisjointLe (a b : Span) : Prop :=
  a.2.1 ≤ b.2.1 ∧ a.2.2 ≤ b.2.1

instance : DecidableRel spanDisjointLe := fun a b => by
  unfold spanDisjointLe; infer_instance

/-- The sort key `(orig_start, orig_end)` of a span (the end is compared in
reverse). -/
def spanKey (sp : Span) : Nat × Nat := (sp.2.1, sp.2.2)

/-- `o` originates from the first-sorted input span of its overlap group:
some input span contributes `o`'s type and start, ends within `o`, and no
input span with the same start ends later (so that span sorts first among
spans with `o`'s start under "start ascending, end descending"). -/
def firstOfGroup (spans : List Span) (o : Span) : Prop :=
  ∃ e0, (o.1, o.2.1, e0) ∈ spans ∧ e0 ≤ o.2.2 ∧
    ∀ x ∈ spans, x.2.1 = o.2.1 → x.2.2 ≤ e0

/-- The distinct `(type, value)` keys of the spans in first-seen
(left-to-right) order. -/
def seenKeys (original : List Char) (spans : List Span) :
    List (EntityType × List Char) :=
  spans.foldl
    (fun acc sp => if keyOf original sp ∈ acc then acc else acc ++ [keyOf original sp])
    []

/-- Index of the first occurrence of `k` (length of the list if absent). -/
def posOf {K : Type} [DecidableEq K] (k : K) : List K → Nat
  | [] => 0
  | x :: xs => if x = k then 0 else posOf k xs + 1

/-- The placeholder counter value a key receives: 1 plus the number of
distinct keys of the same entity type first seen strictly before it. -/
def keyRank (original : List Char) (spans : List Span)
    (k : EntityType × List Char) : Nat :=
  posOf k ((seenKeys original spans).filter fun k2 => decide (k2.1 = k.1)) + 1

/-- Each span paired with the placeholder the entity map assigns to it. -/
def spansWithPlaceholders (original : List Char)
    (entityMap : List ((EntityType × List Char) × List Char))
    (spans : List Span) : List (Nat × Nat × List Char) :=
  spans.map fun sp => (sp.2.1, sp.2.2, (alookup (keyOf original sp) entityMap).getD [])

/-- The start of the first span, or `dflt` if there is none (the upper bound
for positions untouched by the rewrite pass so far). -/
def firstStart (dflt : Nat) : List Span → Nat
  | [] => dflt
  | sp :: _ => sp.2.1

/-- The interleaving `text[cur:s1] + p1 + text[e1:s2] + p2 + ... + text[en:]`
of untouched text segments and placeholders. -/
def piecewise (text : List Char) : Nat → List (Nat × Nat × List Char) → List Char
  | pos, [] => text.drop pos
  | pos, (s, e, p) :: rest => pySlice text pos s ++ p ++ piecewise text e rest

/-- The output-text position of each placeholder in the interleaving:
`off` is the output length already emitted, `cur` the original-text cursor. -/
def replPositions : Nat → Nat → List (Nat × Nat × List Char) → List Nat
  | _, _, [] => []
  | off, cur, (s, e, p) :: rest =>
    (off + (s - cur)) :: replPositions (off + (s - cur) + p.length) e rest

/-! # Theorems -/

/-- C5: for every detection and mapping array, the span mapper discards the
detection exactly when `trans_start >= len(mapping)` or `trans_end < 1`, and
otherwise produces `orig_start = mapping[trans_start]` and
`orig_end = mapping[min(trans_end - 1, len(mapping) - 1)] + 1`. -/
theorem detectionToOriginalSpan_spec (d : Detection) (m : List Nat) :
    (detectionToOriginalSpan d m = none ↔
      m.length ≤ d.transStart ∨ d.transEnd < 1) ∧
    (∀ (h1 : d.transStart < m.length), 1 ≤ d.transEnd →
      detectionToOriginalSpan d m =
        some (m.get ⟨d.transStart, h1⟩,
              m.get ⟨min (d.transEnd - 1) (m.length - 1),
                     Nat.lt_of_le_of_lt (Nat.min_le_right _ _)
                       (Nat.sub_lt (Nat.zero_lt_of_lt h1) Nat.one_pos)⟩ + 1)) := by
  constructor
  · unfold detectionToOriginalSpan
    by_cases hc : (d.transStart ≥ m.length || d.transEnd < 1) = true
    · rw [if_pos hc]
      simp only [Bool.or_eq_true, decide_eq_true_eq, ge_iff_le] at hc
      simpa using hc
    · rw [if_neg hc]
      simp only [Bool.or_eq_true, decide_eq_true_eq, ge_iff_le] at hc
      push_neg at hc
      simp only [Option.some_ne_none, false_iff]
      omega
  · intro h1 h2
    unfold detectionToOriginalSpan
    have hc : ¬ (d.transStart ≥ m.length || d.transEnd < 1) = true := by
      simp only [Bool.or_eq_true, decide_eq_true_eq]
      push_neg
      omega
    rw [if_neg hc]
    have hlt : min (d.transEnd - 1) (m.length - 1) < m.length :=
      Nat.lt_of_le_of_lt (Nat.min_le_right _ _)
        (Nat.sub_lt (Nat.zero_lt_of_lt h1) Nat.one_pos)
    show some (m.getD d.transStart 0,
        m.getD (min (d.transEnd - 1) (m.length - 1)) 0 + 1) = _
    rw [List.getD_eq_getElem _ _ h1, List.getD_eq_getElem _ _ hlt]
    rfl

/-- Witness for C5 at a concrete detection and mapping. -/
theorem detectionToOriginalSpan_spec_witness :
    detectionToOriginalSpan ⟨.PERSON, 1, 3⟩ [5, 6, 7] = some (6, 8) :=
  (detectionToOriginalSpan_spec ⟨.PERSON, 1, 3⟩ [5, 6, 7]).2
    (by decide) (by decide)

/-- C8: the `anonymize` wrapper yields either a complete result or the single
error kind `AnonymizationError`; an underlying `AnonymizationError`
propagates unchanged (no double wrapping) while any other exception is
wrapped with a descriptive message, and the embedded total pipeline always
returns the full result of `run`. -/
theorem anonymizeGuard_spec (body : Except PyError AnonymizationResult) :
    ((∃ r, anonymizeGuard body = .ok r) ∨
      (∃ m, anonymizeGuard body = .error (.anonymizationError m))) ∧
    (∀ r, body = .ok r → anonymizeGuard body = .ok r) ∧
    (∀ m, body = .error (.anonymizationError m) →
      anonymizeGuard body = .error (.anonymizationError m)) ∧
    (∀ m, body = .error (.otherError m) →
      anonymizeGuard body =
        .error (.anonymizationError ("Anonymization failed: " ++ m))) ∧
    (∀ nfc translit ops text ws,
      anonymize nfc translit ops text ws = .ok (run nfc translit ops text ws)) := by
  refine ⟨?_, ?_, ?_, ?_, fun _ _ _ _ _ => rfl⟩
  · match body with
    | .ok r => exact Or.inl ⟨r, rfl⟩
    | .error (.anonymizationError m) => exact Or.inr ⟨m, rfl⟩
    | .error (.otherError m) => exact Or.inr ⟨_, rfl⟩
  · rintro r rfl; rfl
  · rintro m rfl; rfl
  · rintro m rfl; rfl

/-- Witness for C8: a non-`AnonymizationError` failure gets wrapped with the
descriptive message. -/
theorem anonymizeGuard_spec_witness :
    anonymizeGuard (.error (.otherError "boom")) =
      .error (.anonymizationError ("Anonymization failed: " ++ "boom")) :=
  (anonymizeGuard_spec (.error (.otherError "boom"))).2.2.2.1 "boom" rfl

/-- C9: with no dictionary and no pattern matches, `anonymize` succeeds with
the NFC-normalized input and an empty artifact list; the empty input
short-circuits to `{anonymizedText: "", artifacts: []}` without error. -/
theorem anonymize_no_pii (nfc translit : List Char → List Char)
    (ops : OpcodeSource) (text : List Char) (dict : List (List Char)) :
    (text = [] → anonymize nfc translit ops text dict =
      .ok { anonymizedText := [], artifacts := [] }) ∧
    (text ≠ [] →
      detectDictionary (transliterateWithMapping translit ops (nfc text)).1
        (normalizeDictionary nfc translit dict) = [] →
      detectRegex (transliterateWithMapping translit ops (nfc text)).1 = [] →
      anonymize nfc translit ops text dict =
        .ok { anonymizedText := nfc text, artifacts := [],
              translitMapping :=
                (transliterateWithMapping translit ops (nfc text)).2 }) := by
  constructor
  · intro h
    simp [anonymize, anonymizeGuard, run, h]
  · intro h hd hr
    simp [anonymize, anonymizeGuard, run, h, hd, hr]

/-- Witness for C9 at a concrete no-PII input. -/
theorem anonymize_no_pii_witness :
    anonymize (fun l => l) (fun l => l.map Char.toLower) (fun _ _ => [])
      "Hi cat".toList ["zz".toList] =
      .ok { anonymizedText := "Hi cat".toList, artifacts := [],
            translitMapping := [0, 1, 2, 3, 4, 5] } :=
  (anonymize_no_pii (fun l => l) (fun l => l.map Char.toLower) (fun _ _ => [])
    "Hi cat".toList ["zz".toList]).2 (by decide) (by decide) (by decide)

/-- C1 counterexample: with the degenerate (but deterministic) capability
that transliterates everything to the empty string, a nonempty input yields
an empty `transliteration_mapping`, refuting "the mapping is empty only if
the input text is empty". -/
theorem run_mapping_empty_counterexample :
    "a".toList ≠ [] ∧
    (run (fun l => l) (fun _ => []) (fun _ _ => []) "a".toList
      []).translitMapping = [] := by
  decide

/-- C6 counterexample: for the comparison token `"a-a"` (reachable, since
only leading/trailing punctuation is stripped from dictionary tokens) the
detections emitted in `"a-a-a"` are `[0,3)` and `[2,5)`, which overlap — the
boundary rule only blocks overlaps for purely alphanumeric tokens. -/
theorem detectDictionary_overlap_counterexample :
    detectDictionary "a-a-a".toList ["a-a".toList] =
      [⟨.PERSON, 0, 3⟩, ⟨.PERSON, 2, 5⟩] ∧
    ¬ List.Pairwise
        (fun d1 d2 : Detection =>
          d1.transEnd ≤ d2.transStart ∨ d2.transEnd ≤ d1.transStart)
        (detectDictionary "a-a-a".toList ["a-a".toList]) := by
  decide

/-! ### Mapping invariants (C1) -/

theorem transliteratePerCharacter_length (translit : List Char → List Char) :
    ∀ (l : List Char) (i : Nat),
      (transliteratePerCharacter translit l i).2.length =
        (transliteratePerCharacter translit l i).1.length
  | [], _ => rfl
  | c :: cs, i => by
    simp [transliteratePerCharacter,
      transliteratePerCharacter_length translit cs (i + 1)]

theorem transliteratePerCharacter_mem (translit : List Char → List Char) :
    ∀ (l : List Char) (i : Nat),
      ∀ x ∈ (transliteratePerCharacter translit l i).2,
        i ≤ x ∧ x < i + l.length
  | [], _ => by simp [transliteratePerCharacter]
  | c :: cs, i => by
    intro x hx
    simp only [transliteratePerCharacter, List.mem_append,
      List.mem_replicate] at hx
    rcases hx with ⟨_, rfl⟩ | hx
    · simp
    · have := transliteratePerCharacter_mem translit cs (i + 1) x hx
      simp only [List.length_cons]
      omega

theorem transliteratePerCharacter_chain (translit : List Char → List Char) :
    ∀ (l : List Char) (i : Nat),
      List.Chain' (· ≤ ·) (transliteratePerCharacter translit l i).2
  | [], _ => by simp [transliteratePerCharacter]
  | c :: cs, i => by
    simp only [transliteratePerCharacter]
    rw [List.chain'_append]
    refine ⟨?_, transliteratePerCharacter_chain translit cs (i + 1), ?_⟩
    · exact List.chain'_replicate_of_rel _ (le_refl i)
    · intro x hx y hy
      have hx2 := List.mem_of_mem_getLast? hx
      have hy2 := List.mem_of_mem_head? hy
      rw [List.eq_of_mem_replicate hx2]
      have := (transliteratePerCharacter_mem translit cs (i + 1) y hy2).1
      omega

theorem foldl_set_length (g h : Nat → Nat) :
    ∀ (rl : List Nat) (m : List Nat),
      (rl.foldl (fun m2 s => m2.set (g s) (h s)) m).length = m.length
  | [], _ => rfl
  | r :: rs, m => by
    simp [List.foldl_cons, foldl_set_length g h rs, List.length_set]

theorem foldl_set2_length (g : Nat → Nat) (v : Nat) :
    ∀ (rl : List Nat) (st : List Nat × List Bool),
      ((rl.foldl (fun st2 s => (st2.1.set (g s) v, st2.2.set (g s) true)) st).1.length
          = st.1.length) ∧
      ((rl.foldl (fun st2 s => (st2.1.set (g s) v, st2.2.set (g s) true)) st).2.length
          = st.2.length)
  | [], _ => ⟨rfl, rfl⟩
  | r :: rs, st => by
    have := foldl_set2_length g v rs (st.1.set (g r) v, st.2.set (g r) true)
    simpa [List.length_set] using this

theorem alignStep_length (maxPerIndex : Nat) (st : List Nat × List Bool)
    (op : Opcode) :
    (alignStep maxPerIndex st op).1.length = st.1.length ∧
    (alignStep maxPerIndex st op).2.length = st.2.length := by
  unfold alignStep
  split
  · exact ⟨foldl_set_length _ _ _ _, rfl⟩
  · exact foldl_set2_length _ _ _ _

theorem alignStep_fold_length (maxPerIndex : Nat) :
    ∀ (ops : List Opcode) (st : List Nat × List Bool),
      ((ops.foldl (alignStep maxPerIndex) st).1.length = st.1.length) ∧
      ((ops.foldl (alignStep maxPerIndex) st).2.length = st.2.length)
  | [], _ => ⟨rfl, rfl⟩
  | op :: rest, st => by
    rw [List.foldl_cons]
    rcases alignStep_fold_length maxPerIndex rest (alignStep maxPerIndex st op)
      with ⟨h1, h2⟩
    rcases alignStep_length maxPerIndex st op with ⟨g1, g2⟩
    exact ⟨h1.trans g1, h2.trans g2⟩

theorem alignFullToPerCharacter_length (ops : List Opcode)
    (full perChar : List Char) :
    (alignFullToPerCharacter ops full perChar).1.length = full.length ∧
    (alignFullToPerCharacter ops full perChar).2.length = full.length := by
  unfold alignFullToPerCharacter
  by_cases h : full = []
  · simp [h]
  · rw [if_neg h]
    have := alignStep_fold_length (perChar.length - 1) ops
      (List.replicate full.length 0, List.replicate full.length false)
    simpa using this

/-- The fold invariant of the composing loop: the accumulator (the output in
reverse) is bounded by `maxOrigIndex`, reverse-sorted, and `last_valid_orig`
is bounded as well. -/
theorem composeStep_fold_invariant (maxOrigIndex maxPerIndex : Nat)
    (perCharToOrig : List Nat) :
    ∀ (l : List (Nat × Bool)) (st : List Nat × Nat),
      List.Chain' (fun a b => b ≤ a) st.1 →
      (∀ x ∈ st.1, x ≤ maxOrigIndex) →
      st.2 ≤ maxOrigIndex →
      (letI out := l.foldl (composeStep maxOrigIndex maxPerIndex perCharToOrig) st
       List.Chain' (fun a b => b ≤ a) out.1 ∧
       (∀ x ∈ out.1, x ≤ maxOrigIndex) ∧
       out.1.length = st.1.length + l.length)
  | [], st => by
    intro h1 h2 _
    exact ⟨h1, h2, rfl⟩
  | pu :: rest, st => by
    intro h1 h2 h3
    rw [List.foldl_cons]
    have hb0 : min (max (perCharToOrig.getD (min (max pu.1 0) maxPerIndex) 0) 0)
        maxOrigIndex ≤ maxOrigIndex := Nat.min_le_right _ _
    have step : composeStep maxOrigIndex maxPerIndex perCharToOrig st pu =
        (_, _) := rfl
    set b0 := min (max (perCharToOrig.getD (min (max pu.1 0) maxPerIndex) 0) 0)
        maxOrigIndex with hb0def
    have hnext := composeStep_fold_invariant maxOrigIndex maxPerIndex
      perCharToOrig rest (composeStep maxOrigIndex maxPerIndex perCharToOrig st pu)
    have hstep1 : List.Chain' (fun a b => b ≤ a)
        (composeStep maxOrigIndex maxPerIndex perCharToOrig st pu).1 := by
      unfold composeStep
      simp only
      match hst : st.1 with
      | [] => simp
      | prev :: tl =>
        refine List.chain'_cons.mpr ⟨Nat.le_max_right _ _, ?_⟩
        rw [hst] at h1
        exact h1
    have hstep2 : ∀ x ∈ (composeStep maxOrigIndex maxPerIndex perCharToOrig st pu).1,
        x ≤ maxOrigIndex := by
      unfold composeStep
      simp only
      intro x hx
      match hst : st.1 with
      | [] =>
        rw [hst] at hx
        simp only [List.mem_singleton] at hx
        subst hx
        split
        · exact Nat.max_le.mpr ⟨hb0, h3⟩
        · exact hb0
      | prev :: tl =>
        rw [hst] at hx h2
        rcases List.mem_cons.mp hx with rfl | hx2
        · refine Nat.max_le.mpr ⟨?_, h2 prev (by simp)⟩
          split
          · exact Nat.max_le.mpr ⟨hb0, h3⟩
          · exact hb0
        · exact h2 x hx2
    have hstep3 : (composeStep maxOrigIndex maxPerIndex perCharToOrig st pu).2
        ≤ maxOrigIndex := by
      have : (composeStep maxOrigIndex maxPerIndex perCharToOrig st pu).2 ∈
          (composeStep maxOrigIndex maxPerIndex perCharToOrig st pu).1 := by
        unfold composeStep
        simp
      exact hstep2 _ this
    have hlen : (composeStep maxOrigIndex maxPerIndex perCharToOrig st pu).1.length
        = st.1.length + 1 := by
      unfold composeStep
      simp
    rcases hnext hstep1 hstep2 hstep3 with ⟨c1, c2, c3⟩
    refine ⟨c1, c2, ?_⟩
    rw [c3, hlen]
    simp only [List.length_cons]
    omega

theorem composeFullToOriginalMapping_length (fullToPerChar : List Nat)
    (uncertain : List Bool) (perCharToOrig : List Nat) (originalLength : Nat)
    (hu : uncertain.length = fullToPerChar.length) :
    (composeFullToOriginalMapping fullToPerChar uncertain perCharToOrig
      originalLength).length = fullToPerChar.length := by
  unfold composeFullToOriginalMapping
  split
  · simp_all
  · split
    · simp
    · split
      · simp
      · have := composeStep_fold_invariant (originalLength - 1)
          (perCharToOrig.length - 1) perCharToOrig
          (fullToPerChar.zip uncertain) ([], 0)
          (by simp) (by simp) (by simp)
        rcases this with ⟨_, _, hlen⟩
        simp only [List.length_reverse, hlen, List.length_zip, List.length_nil,
          Nat.zero_add, hu, Nat.min_self]

theorem composeFullToOriginalMapping_chain (fullToPerChar : List Nat)
    (uncertain : List Bool) (perCharToOrig : List Nat) (originalLength : Nat) :
    List.Chain' (· ≤ ·)
      (composeFullToOriginalMapping fullToPerChar uncertain perCharToOrig
        originalLength) := by
  unfold composeFullToOriginalMapping
  split
  · simp
  · split
    · exact List.chain'_replicate_of_rel _ (le_refl 0)
    · split
      · exact List.chain'_replicate_of_rel _ (le_refl 0)
      · have := composeStep_fold_invariant (originalLength - 1)
          (perCharToOrig.length - 1) perCharToOrig
          (fullToPerChar.zip uncertain) ([], 0)
          (by simp) (by simp) (by simp)
        rcases this with ⟨hc, _, _⟩
        rw [List.chain'_reverse]
        exact hc

theorem composeFullToOriginalMapping_bound (fullToPerChar : List Nat)
    (uncertain : List Bool) (perCharToOrig : List Nat) (originalLength : Nat)
    (hpos : 1 ≤ originalLength) :
    ∀ x ∈ composeFullToOriginalMapping fullToPerChar uncertain perCharToOrig
      originalLength, x ≤ originalLength - 1 := by
  unfold composeFullToOriginalMapping
  split
  · simp
  · split
    · omega
    · split
      · intro x hx
        rw [List.eq_of_mem_replicate hx]
        omega
      · have := composeStep_fold_invariant (originalLength - 1)
          (perCharToOrig.length - 1) perCharToOrig
          (fullToPerChar.zip uncertain) ([], 0)
          (by simp) (by simp) (by simp)
        rcases this with ⟨_, hb, _⟩
        intro x hx
        exact hb x (List.mem_reverse.mp hx)

theorem transliterateWithMapping_spec (translit : List Char → List Char)
    (ops : OpcodeSource) (text : List Char) :
    (transliterateWithMapping translit ops text).2.length =
      (transliterateWithMapping translit ops text).1.length ∧
    List.Chain' (· ≤ ·) (transliterateWithMapping translit ops text).2 ∧
    (∀ x ∈ (transliterateWithMapping translit ops text).2, x < text.length) ∧
    ((transliterateWithMapping translit ops text).2 = [] ↔
      (transliterateWithMapping translit ops text).1 = []) := by
  unfold transliterateWithMapping
  by_cases ht : text = []
  · simp [ht]
  · rw [if_neg ht]
    simp only
    by_cases he : translit text = (transliteratePerCharacter translit text 0).1
    · rw [if_pos he]
      have hlen := transliteratePerCharacter_length translit text 0
      refine ⟨by rw [hlen, he], transliteratePerCharacter_chain translit text 0,
        ?_, ?_⟩
      · intro x hx
        have := (transliteratePerCharacter_mem translit text 0 x hx).2
        omega
      · rw [he]
        constructor
        · intro h2
          rw [← List.length_eq_zero, ← hlen, h2]
          rfl
        · intro h2
          rw [← List.length_eq_zero, hlen, h2]
          rfl
    · rw [if_neg he]
      simp only
      have halign := alignFullToPerCharacter_length
        (ops (translit text) (transliteratePerCharacter translit text 0).1)
        (translit text) (transliteratePerCharacter translit text 0).1
      have hu : (alignFullToPerCharacter
          (ops (translit text) (transliteratePerCharacter translit text 0).1)
          (translit text) (transliteratePerCharacter translit text 0).1).2.length =
          (alignFullToPerCharacter
          (ops (translit text) (transliteratePerCharacter translit text 0).1)
          (translit text) (transliteratePerCharacter translit text 0).1).1.length :=
        halign.2.trans halign.1.symm
      have hclen := composeFullToOriginalMapping_length _ _
        (transliteratePerCharacter translit text 0).2 text.length hu
      have hpos : 1 ≤ text.length := by
        cases text
        · exact absurd rfl ht
        · simp
      refine ⟨by rw [hclen, halign.1],
        composeFullToOriginalMapping_chain _ _ _ _, ?_, ?_⟩
      · intro x hx
        have := composeFullToOriginalMapping_bound _ _
          (transliteratePerCharacter translit text 0).2 text.length hpos x hx
        omega
      · constructor
        · intro h2
          rw [← List.length_eq_zero, ← halign.1, ← hclen, h2]
          rfl
        · intro h2
          rw [← List.length_eq_zero, hclen, halign.1, h2]
          rfl

theorem run_translitMapping_eq (nfc translit : List Char → List Char)
    (ops : OpcodeSource) (text : List Char) (dict : List (List Char))
    (ht : text ≠ []) :
    (run nfc translit ops text dict).translitMapping =
      (transliterateWithMapping translit ops (nfc text)).2 := by
  unfold run
  rw [if_neg ht]
  simp only
  split
  · rfl
  · rfl

/-- C1 (amended): for every input and every combination of external
capabilities, the `transliteration_mapping` of the result is the engine
mapping; it has the same length as the transliterated text, is
non-decreasing, and every entry is an index into the NFC-normalized text
(which equals the input whenever the input is already NFC-normal); it is
empty iff the transliterated text is empty, and it is always empty for empty
input.  (The original claim's "empty only if the input is empty" fails, see
`run_mapping_empty_counterexample`: a capability may transliterate a nonempty
text to the empty string.) -/
theorem run_mapping_invariants (nfc translit : List Char → List Char)
    (ops : OpcodeSource) (text : List Char) (dict : List (List Char)) :
    (text = [] → (run nfc translit ops text dict).translitMapping = []) ∧
    (text ≠ [] →
      (run nfc translit ops text dict).translitMapping =
        (transliterateWithMapping translit ops (nfc text)).2 ∧
      (transliterateWithMapping translit ops (nfc text)).2.length =
        (transliterateWithMapping translit ops (nfc text)).1.length ∧
      List.Chain' (· ≤ ·) (transliterateWithMapping translit ops (nfc text)).2 ∧
      (∀ x ∈ (transliterateWithMapping translit ops (nfc text)).2,
        x < (nfc text).length) ∧
      ((transliterateWithMapping translit ops (nfc text)).2 = [] ↔
        (transliterateWithMapping translit ops (nfc text)).1 = [])) := by
  constructor
  · intro h
    simp [run, h]
  · intro ht
    exact ⟨run_translitMapping_eq nfc translit ops text dict ht,
      transliterateWithMapping_spec translit ops (nfc text)⟩

/-- Witness for C1 at a concrete input and concrete capabilities. -/
theorem run_mapping_invariants_witness :
    (run (fun l => l) (fun l => l.map Char.toLower) (fun _ _ => [])
        "Ab".toList []).translitMapping =
      (transliterateWithMapping (fun l => l.map Char.toLower) (fun _ _ => [])
        "Ab".toList).2 ∧
    (transliterateWithMapping (fun l => l.map Char.toLower) (fun _ _ => [])
        "Ab".toList).2.length =
      (transliterateWithMapping (fun l => l.map Char.toLower) (fun _ _ => [])
        "Ab".toList).1.length ∧
    List.Chain' (· ≤ ·)
      (transliterateWithMapping (fun l => l.map Char.toLower) (fun _ _ => [])
        "Ab".toList).2 ∧
    (∀ x ∈ (transliterateWithMapping (fun l => l.map Char.toLower)
        (fun _ _ => []) "Ab".toList).2, x < "Ab".toList.length) ∧
    ((transliterateWithMapping (fun l => l.map Char.toLower) (fun _ _ => [])
        "Ab".toList).2 = [] ↔
      (transliterateWithMapping (fun l => l.map Char.toLower) (fun _ _ => [])
        "Ab".toList).1 = []) :=
  (run_mapping_invariants (fun l => l) (fun l => l.map Char.toLower)
    (fun _ _ => []) "Ab".toList []).2 (by decide)

/-! ### Merge invariants (C4) -/

theorem spanLe_start {a b : Span} (h : spanLe a b) : a.2.1 ≤ b.2.1 := by
  rcases h with h | ⟨h, _⟩
  · omega
  · omega

theorem mergeLoop_nil (acc : List Span) : mergeLoop acc [] = acc.reverse := by
  cases acc <;> rfl

theorem mergeLoop_emp (sp : Span) (rest : List Span) :
    mergeLoop [] (sp :: rest) = mergeLoop [sp] rest := by
  obtain ⟨t, s, e⟩ := sp
  rfl

theorem mergeLoop_cons (pt : EntityType) (ps pe : Nat) (accTail : List Span)
    (t : EntityType) (s e : Nat) (rest : List Span) :
    mergeLoop ((pt, ps, pe) :: accTail) ((t, s, e) :: rest) =
      if s < pe then mergeLoop ((pt, ps, max pe e) :: accTail) rest
      else mergeLoop ((t, s, e) :: (pt, ps, pe) :: accTail) rest := by
  rfl

theorem covers_nil (p : Nat) : covers [] p ↔ False := by
  simp [covers]

theorem covers_cons (x : Span) (l : List Span) (p : Nat) :
    covers (x :: l) p ↔ (x.2.1 ≤ p ∧ p < x.2.2) ∨ covers l p := by
  unfold covers
  constructor
  · rintro ⟨sp, hm, h2⟩
    rcases List.mem_cons.mp hm with rfl | hm
    · exact Or.inl h2
    · exact Or.inr ⟨sp, hm, h2⟩
  · rintro (h | ⟨sp, hm, h2⟩)
    · exact ⟨x, List.mem_cons_self _ _, h⟩
    · exact ⟨sp, List.mem_cons_of_mem _ hm, h2⟩

theorem covers_reverse (l : List Span) (p : Nat) :
    covers l.reverse p ↔ covers l p := by
  unfold covers
  simp only [List.mem_reverse]

theorem mergeLoop_pairwise (rest : List Span) :
    ∀ acc : List Span,
      rest.Pairwise spanLe →
      acc.reverse.Pairwise spanDisjointLe →
      (∀ h accT, acc = h :: accT →
        (∀ sp ∈ rest, h.2.1 ≤ sp.2.1) ∧
        (∀ a ∈ accT, ∀ sp ∈ rest, spanDisjointLe a sp)) →
      (mergeLoop acc rest).Pairwise spanDisjointLe := by
  induction rest with
  | nil =>
    intro acc _ hacc _
    match acc with
    | [] => exact List.Pairwise.nil
    | a :: accT => exact hacc
  | cons sp rest ih =>
    intro acc hsorted hacc hinv
    obtain ⟨t, s, e⟩ := sp
    rw [List.pairwise_cons] at hsorted
    match acc with
    | [] =>
      show (mergeLoop [(t, s, e)] rest).Pairwise _
      apply ih
      · exact hsorted.2
      · simp
      · rintro h accT heq
        cases heq
        refine ⟨fun sp2 hsp2 => spanLe_start (hsorted.1 sp2 hsp2), by simp⟩
    | (pt, ps, pe) :: accTail =>
      have hinv2 := hinv (pt, ps, pe) accTail rfl
      show (if s < pe then mergeLoop ((pt, ps, max pe e) :: accTail) rest
        else mergeLoop ((t, s, e) :: (pt, ps, pe) :: accTail) rest).Pairwise _
      split
      · -- absorb: extend the head's end
        rename_i hov
        apply ih
        · exact hsorted.2
        · rw [List.reverse_cons] at hacc ⊢
          rw [List.pairwise_append] at hacc ⊢
          refine ⟨hacc.1, List.pairwise_singleton _ _, ?_⟩
          intro a ha b hb
          simp only [List.mem_singleton] at hb
          subst hb
          have h2 := hacc.2.2 a ha (pt, ps, pe) (by simp)
          exact ⟨h2.1, h2.2⟩
        · rintro h accT heq
          cases heq
          constructor
          · intro sp2 hsp2
            exact (hinv2.1 (t, s, e) (by simp)).trans
              (spanLe_start (hsorted.1 sp2 hsp2))
          · intro a ha sp2 hsp2
            exact hinv2.2 a ha sp2 (List.mem_cons_of_mem _ hsp2)
      · -- accept: start a new span
        rename_i hov
        push_neg at hov
        apply ih
        · exact hsorted.2
        · rw [List.reverse_cons, List.pairwise_append]
          refine ⟨hacc, List.pairwise_singleton _ _, ?_⟩
          intro a ha b hb
          simp only [List.mem_singleton] at hb
          subst hb
          rw [List.reverse_cons, List.mem_append] at ha
          rcases ha with ha | ha
          · exact hinv2.2 a (List.mem_reverse.mp ha) (t, s, e) (by simp)
          · simp only [List.mem_singleton] at ha
            subst ha
            exact ⟨hinv2.1 (t, s, e) (by simp), hov⟩
        · rintro h accT heq
          cases heq
          constructor
          · intro sp2 hsp2
            exact spanLe_start (hsorted.1 sp2 hsp2)
          · intro a ha sp2 hsp2
            rcases List.mem_cons.mp ha with rfl | ha
            · exact ⟨(hinv2.1 (t, s, e) (by simp)).trans
                (spanLe_start (hsorted.1 sp2 hsp2)),
                hov.trans (spanLe_start (hsorted.1 sp2 hsp2))⟩
            · exact hinv2.2 a ha sp2 (List.mem_cons_of_mem _ hsp2)

theorem mergeLoop_covers (rest : List Span) :
    ∀ acc : List Span,
      rest.Pairwise spanLe →
      (∀ h accT, acc = h :: accT → ∀ sp ∈ rest, h.2.1 ≤ sp.2.1) →
      ∀ p, covers (mergeLoop acc rest) p ↔ covers acc p ∨ covers rest p := by
  induction rest with
  | nil =>
    intro acc _ _ p
    rw [mergeLoop_nil, covers_reverse, covers_nil]
    tauto
  | cons sp rest ih =>
    intro acc hsorted hinv p
    obtain ⟨t, s, e⟩ := sp
    rw [List.pairwise_cons] at hsorted
    match acc with
    | [] =>
      rw [mergeLoop_emp,
        ih [(t, s, e)] hsorted.2
          (by rintro h accT heq; cases heq
              exact fun sp2 hsp2 => spanLe_start (hsorted.1 sp2 hsp2))]
      simp only [covers_cons, covers_nil]
      tauto
    | (pt, ps, pe) :: accTail =>
      have hps : ps ≤ s := hinv (pt, ps, pe) accTail rfl (t, s, e) (by simp)
      rw [mergeLoop_cons]
      split
      · rename_i hov
        rw [ih ((pt, ps, max pe e) :: accTail) hsorted.2
          (by rintro h accT heq; cases heq
              intro sp2 hsp2
              exact hps.trans (spanLe_start (hsorted.1 sp2 hsp2)))]
        simp only [covers_cons]
        have harith : (ps ≤ p ∧ p < max pe e) ↔
            ((ps ≤ p ∧ p < pe) ∨ (s ≤ p ∧ p < e)) := by omega
        tauto
      · rename_i hov
        push_neg at hov
        rw [ih ((t, s, e) :: (pt, ps, pe) :: accTail) hsorted.2
          (by rintro h accT heq; cases heq
              exact fun sp2 hsp2 => spanLe_start (hsorted.1 sp2 hsp2))]
        simp only [covers_cons]
        tauto

theorem mergeLoop_firstOfGroup (rest : List Span) :
    ∀ (acc processed ss : List Span),
      ss = processed ++ rest →
      rest.Pairwise spanLe →
      (∀ sp ∈ ss, sp.2.1 ≤ sp.2.2) →
      (∀ h accT, acc = h :: accT →
        (∀ sp ∈ rest, h.2.1 ≤ sp.2.1) ∧
        (∀ x ∈ processed, x.2.2 ≤ max h.2.1 h.2.2)) →
      (acc = [] → processed = []) →
      (∀ o ∈ acc, firstOfGroup ss o) →
      ∀ o ∈ mergeLoop acc rest, firstOfGroup ss o := by
  induction rest with
  | nil =>
    intro acc processed ss _ _ _ _ _ hall o ho
    rw [mergeLoop_nil] at ho
    exact hall o (List.mem_reverse.mp ho)
  | cons sp rest ih =>
    intro acc processed ss hss hsorted hwf hinv hemp hall
    obtain ⟨t, s, e⟩ := sp
    rw [List.pairwise_cons] at hsorted
    have hmemtse : (t, s, e) ∈ ss := by
      rw [hss]
      exact List.mem_append_right _ (List.mem_cons_self _ _)
    have hwtse : s ≤ e := hwf (t, s, e) hmemtse
    match acc with
    | [] =>
      have hproc : processed = [] := hemp rfl
      subst hproc
      rw [mergeLoop_emp]
      apply ih [(t, s, e)] [(t, s, e)] ss
      · simpa using hss
      · exact hsorted.2
      · exact hwf
      · rintro h accT heq
        cases heq
        refine ⟨fun sp2 hsp2 => spanLe_start (hsorted.1 sp2 hsp2), ?_⟩
        intro x hx
        simp only [List.mem_singleton] at hx
        subst hx
        simp only
        omega
      · intro h
        exact absurd h (by simp)
      · intro o ho
        simp only [List.mem_singleton] at ho
        subst ho
        refine ⟨e, hmemtse, le_refl e, ?_⟩
        intro x hx hx1
        rw [hss] at hx
        simp only [List.nil_append, List.mem_cons] at hx
        rcases hx with rfl | hx
        · exact le_refl _
        · rcases hsorted.1 x hx with h | ⟨_, h⟩
          · have hlt : s < x.2.1 := h
            simp only at hx1
            omega
          · exact h
    | (pt, ps, pe) :: accTail =>
      have hinv2 := hinv (pt, ps, pe) accTail rfl
      have hps : ps ≤ s := hinv2.1 (t, s, e) (List.mem_cons_self _ _)
      have hssr : ss = (processed ++ [(t, s, e)]) ++ rest := by
        rw [hss, List.append_assoc]
        rfl
      rw [mergeLoop_cons]
      split
      · rename_i hov
        apply ih ((pt, ps, max pe e) :: accTail) (processed ++ [(t, s, e)]) ss
          hssr hsorted.2 hwf
        · rintro h accT heq
          cases heq
          constructor
          · intro sp2 hsp2
            exact hinv2.1 sp2 (List.mem_cons_of_mem _ hsp2)
          · intro x hx
            rcases List.mem_append.mp hx with hx | hx
            · have := hinv2.2 x hx
              simp only at this ⊢
              omega
            · simp only [List.mem_singleton] at hx
              subst hx
              simp only
              omega
        · intro h
          exact absurd h (by simp)
        · intro o ho
          rcases List.mem_cons.mp ho with rfl | ho
          · obtain ⟨e0, hm, he0, hmax⟩ := hall (pt, ps, pe) (List.mem_cons_self _ _)
            refine ⟨e0, hm, ?_, hmax⟩
            simp only at he0 ⊢
            omega
          · exact hall o (List.mem_cons_of_mem _ ho)
      · rename_i hov
        push_neg at hov
        apply ih ((t, s, e) :: (pt, ps, pe) :: accTail) (processed ++ [(t, s, e)])
          ss hssr hsorted.2 hwf
        · rintro h accT heq
          cases heq
          constructor
          · intro sp2 hsp2
            exact spanLe_start (hsorted.1 sp2 hsp2)
          · intro x hx
            rcases List.mem_append.mp hx with hx | hx
            · have := hinv2.2 x hx
              simp only at this ⊢
              omega
            · simp only [List.mem_singleton] at hx
              subst hx
              simp only
              omega
        · intro h
          exact absurd h (by simp)
        · intro o ho
          rcases List.mem_cons.mp ho with rfl | ho
          · refine ⟨e, hmemtse, le_refl e, ?_⟩
            intro x hx hx1
            simp only at hx1
            rw [hss] at hx
            rcases List.mem_append.mp hx with hx | hx
            · have := hinv2.2 x hx
              simp only at this
              omega
            · rcases List.mem_cons.mp hx with rfl | hx
              · exact le_refl _
              · rcases hsorted.1 x hx with h | ⟨_, h⟩
                · have hlt : s < x.2.1 := h
                  omega
                · exact h
          · exact hall o ho

theorem covers_perm {l1 l2 : List Span} (h : l1.Perm l2) (p : Nat) :
    covers l1 p ↔ covers l2 p := by
  unfold covers
  constructor
  · rintro ⟨sp, hm, h2⟩
    exact ⟨sp, h.mem_iff.mp hm, h2⟩
  · rintro ⟨sp, hm, h2⟩
    exact ⟨sp, h.mem_iff.mpr hm, h2⟩

theorem firstOfGroup_perm {l1 l2 : List Span} (h : l1.Perm l2) (o : Span) :
    firstOfGroup l1 o → firstOfGroup l2 o := by
  rintro ⟨e0, hm, he0, hmax⟩
  exact ⟨e0, h.mem_iff.mp hm, he0, fun x hx => hmax x (h.mem_iff.mpr hx)⟩

/-- C4: for every list of raw `(type, orig_start, orig_end)` spans, the merge
(sort by start ascending then end descending, then sweep left to right)
produces output that is sorted by `orig_start` and pairwise non-overlapping,
covers exactly the union of the input intervals, and (for genuine half-open
spans, `start ≤ end`) carries on each output span the type and start of the
first-sorted input span of its overlap group. -/
theorem mergeOverlappingSpans_spec (spans : List Span) :
    (mergeOverlappingSpans spans).Pairwise spanDisjointLe ∧
    (∀ p, covers (mergeOverlappingSpans spans) p ↔ covers spans p) ∧
    ((∀ sp ∈ spans, sp.2.1 ≤ sp.2.2) →
      ∀ o ∈ mergeOverlappingSpans spans, firstOfGroup spans o) := by
  have hsorted : (sortSpans spans).Pairwise spanLe :=
    List.sorted_insertionSort spanLe spans
  have hperm : (sortSpans spans).Perm spans := List.perm_insertionSort spanLe spans
  refine ⟨?_, ?_, ?_⟩
  · exact mergeLoop_pairwise (sortSpans spans) [] hsorted (by simp)
      (by intro h accT heq; exact absurd heq (by simp))
  · intro p
    rw [mergeOverlappingSpans,
      mergeLoop_covers (sortSpans spans) [] hsorted
        (by intro h accT heq; exact absurd heq (by simp)) p,
      covers_nil, covers_perm hperm p]
    tauto
  · intro hwf o ho
    refine firstOfGroup_perm hperm o ?_
    apply mergeLoop_firstOfGroup (sortSpans spans) [] [] (sortSpans spans)
      (by simp) hsorted (fun sp hsp => hwf sp (hperm.mem_iff.mp hsp))
      (by intro h accT heq; exact absurd heq (by simp))
      (fun _ => rfl) (by simp)
    exact ho

/-- Witness for C4 on a concrete overlapping input: `(PERSON,0,5)` and
`(ID,3,9)` merge to the single span `(PERSON,0,9)`. -/
theorem mergeOverlappingSpans_spec_witness :
    (mergeOverlappingSpans
      [(EntityType.PERSON, 0, 5), (EntityType.ID, 3, 9)]).Pairwise
        spanDisjointLe ∧
    (covers (mergeOverlappingSpans
      [(EntityType.PERSON, 0, 5), (EntityType.ID, 3, 9)]) 7 ↔
      covers [(EntityType.PERSON, 0, 5), (EntityType.ID, 3, 9)] 7) ∧
    firstOfGroup [(EntityType.PERSON, 0, 5), (EntityType.ID, 3, 9)]
      (EntityType.PERSON, 0, 9) :=
  ⟨(mergeOverlappingSpans_spec _).1,
   (mergeOverlappingSpans_spec _).2.1 7,
   (mergeOverlappingSpans_spec
      [(EntityType.PERSON, 0, 5), (EntityType.ID, 3, 9)]).2.2 (by decide)
     (EntityType.PERSON, 0, 9) (by decide)⟩

/-! ### The rewrite pass (C10) and placeholder assignment (C3) -/

theorem pass2_cons (original : List Char)
    (entityMap : List ((EntityType × List Char) × List Char)) (sp : Span)
    (spans : List Span) :
    pass2 original entityMap (sp :: spans) =
      ((pass2 original entityMap spans).1.take sp.2.1 ++
        (alookup (keyOf original sp) entityMap).getD [] ++
        (pass2 original entityMap spans).1.drop sp.2.2,
       ⟨sp.1, pySlice original sp.2.1 sp.2.2,
        (alookup (keyOf original sp) entityMap).getD []⟩ ::
         (pass2 original entityMap spans).2) := rfl

theorem pass2_artifacts (original : List Char)
    (entityMap : List ((EntityType × List Char) × List Char)) :
    ∀ spans : List Span,
      (pass2 original entityMap spans).2 =
        spans.map fun sp =>
          ⟨sp.1, pySlice original sp.2.1 sp.2.2,
           (alookup (keyOf original sp) entityMap).getD []⟩
  | [] => rfl
  | sp :: spans => by
    rw [pass2_cons, List.map_cons, ← pass2_artifacts original entityMap spans]

theorem take_append3 {α : Type} (A B C : List α) (q : Nat)
    (h : q ≤ A.length) : ((A ++ B) ++ C).take q = A.take q := by
  rw [List.append_assoc, List.take_append_eq_append_take]
  have h0 : q - A.length = 0 := by omega
  rw [h0, List.take_zero, List.append_nil]

theorem drop_append3 {α : Type} (A B C : List α) (q : Nat)
    (h : q ≤ A.length) : ((A ++ B) ++ C).drop q = (A.drop q ++ B) ++ C := by
  rw [List.append_assoc, List.drop_append_eq_append_drop]
  have h0 : q - A.length = 0 := by omega
  rw [h0, List.drop_zero, ← List.append_assoc]

theorem pass2_piece (original : List Char)
    (entityMap : List ((EntityType × List Char) × List Char)) :
    ∀ spans : List Span,
      List.Chain' (fun a b : Span => a.2.2 ≤ b.2.1) spans →
      (∀ sp ∈ spans, sp.2.1 ≤ sp.2.2 ∧ sp.2.2 ≤ original.length) →
      ∀ q, q ≤ firstStart original.length spans →
        (pass2 original entityMap spans).1.take q = original.take q ∧
        (pass2 original entityMap spans).1.drop q =
          piecewise original q (spansWithPlaceholders original entityMap spans) := by
  intro spans
  induction spans with
  | nil =>
    intro _ _ q _
    exact ⟨rfl, rfl⟩
  | cons sp rest ih =>
    intro hchain hwf q hq
    obtain ⟨t, s, e⟩ := sp
    have hq2 : q ≤ s := hq
    rw [List.chain'_cons'] at hchain
    have hwfh := hwf (t, s, e) (List.mem_cons_self _ _)
    simp only at hwfh
    have hrest : ∀ sp ∈ rest, sp.2.1 ≤ sp.2.2 ∧ sp.2.2 ≤ original.length :=
      fun sp hsp => hwf sp (List.mem_cons_of_mem _ hsp)
    have hefirst : e ≤ firstStart original.length rest := by
      cases rest with
      | nil => exact hwfh.2
      | cons sp2 rest2 => exact hchain.1 sp2 rfl
    have ihe := ih hchain.2 hrest e hefirst
    have ihs := ih hchain.2 hrest s (le_trans hwfh.1 hefirst)
    have hlenR : s ≤ (pass2 original entityMap rest).1.length := by
      have hcon := congrArg List.length ihs.1
      rw [List.length_take, List.length_take] at hcon
      omega
    have hlents : q ≤ ((pass2 original entityMap rest).1.take s).length := by
      rw [List.length_take]
      omega
    rw [pass2_cons]
    simp only
    constructor
    · rw [take_append3 _ _ _ q hlents, List.take_take, min_eq_left hq2]
      exact (ih hchain.2 hrest q (le_trans hq2 (le_trans hwfh.1 hefirst))).1
    · rw [drop_append3 _ _ _ q hlents, ihs.1, ihe.2]
      rfl

/-- C10: for every text and every span list that is sorted, pairwise
non-overlapping and within range, the rewrite pass preserves every character
outside the spans: the anonymized text is exactly
`text[0:s1] + p1 + text[e1:s2] + p2 + ... + text[en:]` with `pi` the
placeholder assigned to span `i`. -/
theorem replaceSpans_frame (original : List Char) (spans : List Span)
    (hsd : List.Pairwise spanDisjointLe spans)
    (hwf : ∀ sp ∈ spans, sp.2.1 ≤ sp.2.2 ∧ sp.2.2 ≤ original.length) :
    (replaceSpans original spans).anonymizedText =
      piecewise original 0
        (spansWithPlaceholders original (pass1 original spans).2 spans) := by
  have hchain : List.Chain' (fun a b : Span => a.2.2 ≤ b.2.1) spans :=
    List.Chain'.imp (fun a b hab => hab.2) (List.Pairwise.chain' hsd)
  have h := (pass2_piece original (pass1 original spans).2 spans hchain hwf 0
    (Nat.zero_le _)).2
  rw [List.drop_zero] at h
  exact h

/-- Witness for C10 at a concrete text and two concrete spans. -/
theorem replaceSpans_frame_witness :
    (replaceSpans "hello world".toList
        [(EntityType.PERSON, 0, 5), (EntityType.ID, 6, 11)]).anonymizedText =
      piecewise "hello world".toList 0
        (spansWithPlaceholders "hello world".toList
          (pass1 "hello world".toList
            [(EntityType.PERSON, 0, 5), (EntityType.ID, 6, 11)]).2
          [(EntityType.PERSON, 0, 5), (EntityType.ID, 6, 11)]) :=
  replaceSpans_frame "hello world".toList
    [(EntityType.PERSON, 0, 5), (EntityType.ID, 6, 11)]
    (by decide) (by decide)

theorem posOf_append_left {K : Type} [DecidableEq K] (k : K) (l2 : List K) :
    ∀ l : List K, k ∈ l → posOf k (l ++ l2) = posOf k l
  | [], h => absurd h (List.not_mem_nil k)
  | x :: xs, h => by
    by_cases hx : x = k
    · simp [posOf, hx]
    · rcases List.mem_cons.mp h with rfl | h2
      · exact absurd rfl hx
      · simp [posOf, hx, posOf_append_left k l2 xs h2]

theorem posOf_append_self {K : Type} [DecidableEq K] (k : K) :
    ∀ l : List K, k ∉ l → posOf k (l ++ [k]) = l.length
  | [], _ => by simp [posOf]
  | x :: xs, h => by
    have hx : x ≠ k := fun hk => h (hk ▸ List.mem_cons_self x xs)
    have h2 : k ∉ xs := fun hk => h (List.mem_cons_of_mem _ hk)
    simp [posOf, hx, posOf_append_self k xs h2]

/-- One step of `_replace`'s first pass preserves the correspondence between
the `(counters, entity_map)` state and the first-seen key list. -/
theorem pass1Step_invariant (original : List Char)
    (st : List (EntityType × Nat) × List ((EntityType × List Char) × List Char))
    (seen : List (EntityType × List Char)) (sp : Span)
    (h1 : ∀ t, (alookup t st.1).getD 0 =
      (seen.filter fun k2 => decide (k2.1 = t)).length)
    (h2 : ∀ k, alookup k st.2 =
      if k ∈ seen
      then some (placeholderStr k.1
        (posOf k (seen.filter fun k2 => decide (k2.1 = k.1)) + 1))
      else none)
    (seen2 : List (EntityType × List Char))
    (hseen : seen2 = if keyOf original sp ∈ seen then seen
                     else seen ++ [keyOf original sp]) :
    (∀ t, (alookup t (pass1Step original st sp).1).getD 0 =
      (seen2.filter fun k2 => decide (k2.1 = t)).length) ∧
    (∀ k, alookup k (pass1Step original st sp).2 =
      if k ∈ seen2
      then some (placeholderStr k.1
        (posOf k (seen2.filter fun k2 => decide (k2.1 = k.1)) + 1))
      else none) := by
  subst hseen
  by_cases hmem : keyOf original sp ∈ seen
  · have hsome : (alookup (keyOf original sp) st.2).isSome = true := by
      rw [h2, if_pos hmem]
      rfl
    rw [if_pos hmem]
    simp only [pass1Step]
    rw [if_pos hsome]
    exact ⟨h1, h2⟩
  · have hnone : alookup (keyOf original sp) st.2 = none := by
      rw [h2, if_neg hmem]
    have hnotsome : ¬ (alookup (keyOf original sp) st.2).isSome = true := by
      rw [hnone]
      simp
    rw [if_neg hmem]
    simp only [pass1Step]
    rw [if_neg hnotsome]
    constructor
    · intro t
      show (if sp.1 = t then some ((alookup sp.1 st.1).getD 0 + 1)
        else alookup t st.1).getD 0 = _
      rw [List.filter_append]
      by_cases ht : sp.1 = t
      · rw [if_pos ht]
        have hf : [keyOf original sp].filter (fun k2 => decide (k2.1 = t)) =
            [keyOf original sp] := by
          simp [keyOf, ht]
        rw [hf, List.length_append, h1 sp.1, ht]
        rfl
      · rw [if_neg ht]
        have hf : [keyOf original sp].filter (fun k2 => decide (k2.1 = t)) =
            [] := by
          simp only [List.filter, keyOf]
          rw [decide_eq_false ht]
        rw [hf, List.append_nil, h1 t]
    · intro k
      show (if keyOf original sp = k
        then some (placeholderStr sp.1 ((alookup sp.1 st.1).getD 0 + 1))
        else alookup k st.2) = _
      by_cases hk : keyOf original sp = k
      · subst hk
        rw [if_pos rfl, if_pos (List.mem_append_right _ (List.mem_cons_self _ _))]
        have hfilter : (seen ++ [keyOf original sp]).filter
            (fun k2 => decide (k2.1 = (keyOf original sp).1)) =
            seen.filter (fun k2 => decide (k2.1 = (keyOf original sp).1)) ++
              [keyOf original sp] := by
          rw [List.filter_append]
          simp
        rw [hfilter]
        have hnotin : keyOf original sp ∉
            seen.filter (fun k2 => decide (k2.1 = (keyOf original sp).1)) :=
          fun hin => hmem (List.mem_of_mem_filter hin)
        rw [posOf_append_self _ _ hnotin, h1 sp.1]
        rfl
      · rw [if_neg hk, h2 k]
        have hmem2 : (k ∈ seen ++ [keyOf original sp]) ↔ k ∈ seen := by
          simp only [List.mem_append, List.mem_singleton]
          constructor
          · rintro (h | h)
            · exact h
            · exact absurd h.symm hk
          · exact Or.inl
        by_cases hks : k ∈ seen
        · rw [if_pos hks, if_pos (hmem2.mpr hks)]
          rw [List.filter_append]
          by_cases hsame : (keyOf original sp).1 = k.1
          · have hf : [keyOf original sp].filter
                (fun k2 => decide (k2.1 = k.1)) = [keyOf original sp] := by
              simp [hsame]
            rw [hf, posOf_append_left]
            exact List.mem_filter.mpr ⟨hks, by simp⟩
          · have hf : [keyOf original sp].filter
                (fun k2 => decide (k2.1 = k.1)) = [] := by
              simp only [List.filter]
              rw [decide_eq_false hsame]
            rw [hf, List.append_nil]
        · rw [if_neg hks, if_neg (fun h => hks (hmem2.mp h))]

theorem pass1_fold_invariant (original : List Char) :
    ∀ (spans : List Span)
      (st : List (EntityType × Nat) × List ((EntityType × List Char) × List Char))
      (seen : List (EntityType × List Char)),
      (∀ t, (alookup t st.1).getD 0 =
        (seen.filter fun k2 => decide (k2.1 = t)).length) →
      (∀ k, alookup k st.2 =
        if k ∈ seen
        then some (placeholderStr k.1
          (posOf k (seen.filter fun k2 => decide (k2.1 = k.1)) + 1))
        else none) →
      (∀ t, (alookup t (spans.foldl (pass1Step original) st).1).getD 0 =
        ((spans.foldl (fun acc sp => if keyOf original sp ∈ acc then acc
            else acc ++ [keyOf original sp]) seen).filter
          fun k2 => decide (k2.1 = t)).length) ∧
      (∀ k, alookup k (spans.foldl (pass1Step original) st).2 =
        if k ∈ spans.foldl (fun acc sp => if keyOf original sp ∈ acc then acc
            else acc ++ [keyOf original sp]) seen
        then some (placeholderStr k.1
          (posOf k ((spans.foldl (fun acc sp => if keyOf original sp ∈ acc
              then acc else acc ++ [keyOf original sp]) seen).filter
            fun k2 => decide (k2.1 = k.1)) + 1))
        else none)
  | [], st, seen => fun h1 h2 => ⟨h1, h2⟩
  | sp :: spans, st, seen => by
    intro h1 h2
    have hstep := pass1Step_invariant original st seen sp h1 h2
      (if keyOf original sp ∈ seen then seen else seen ++ [keyOf original sp])
      rfl
    rw [List.foldl_cons, List.foldl_cons]
    exact pass1_fold_invariant original spans (pass1Step original st sp)
      (if keyOf original sp ∈ seen then seen else seen ++ [keyOf original sp])
      hstep.1 hstep.2

theorem pass1_entityMap (original : List Char) (spans : List Span) :
    ∀ k, alookup k (pass1 original spans).2 =
      if k ∈ seenKeys original spans
      then some (placeholderStr k.1 (keyRank original spans k))
      else none := by
  intro k
  have h := (pass1_fold_invariant original spans ([], []) []
    (by intro t; rfl) (by intro k2; rfl)).2 k
  exact h

theorem pass1_counters (original : List Char) (spans : List Span) :
    ∀ t, (alookup t (pass1 original spans).1).getD 0 =
      ((seenKeys original spans).filter fun k2 => decide (k2.1 = t)).length := by
  intro t
  exact (pass1_fold_invariant original spans ([], []) []
    (by intro t2; rfl) (by intro k2; rfl)).1 t

theorem mem_seenKeys_fold (original : List Char) :
    ∀ (spans : List Span) (seen : List (EntityType × List Char))
      (k : EntityType × List Char),
      (k ∈ spans.foldl (fun acc sp => if keyOf original sp ∈ acc then acc
          else acc ++ [keyOf original sp]) seen ↔
        k ∈ seen ∨ ∃ sp ∈ spans, keyOf original sp = k)
  | [], seen, k => by simp
  | sp :: spans, seen, k => by
    rw [List.foldl_cons, mem_seenKeys_fold original spans _ k]
    constructor
    · rintro (hin | ⟨sp2, hsp2, hk⟩)
      · by_cases hmem : keyOf original sp ∈ seen
        · rw [if_pos hmem] at hin
          exact Or.inl hin
        · rw [if_neg hmem] at hin
          rcases List.mem_append.mp hin with h | h
          · exact Or.inl h
          · simp only [List.mem_singleton] at h
            subst h
            exact Or.inr ⟨sp, List.mem_cons_self _ _, rfl⟩
      · exact Or.inr ⟨sp2, List.mem_cons_of_mem _ hsp2, hk⟩
    · rintro (hin | ⟨sp2, hsp2, hk⟩)
      · refine Or.inl ?_
        split
        · exact hin
        · exact List.mem_append_left _ hin
      · rcases List.mem_cons.mp hsp2 with rfl | hsp2
        · by_cases hmem : keyOf original sp2 ∈ seen
          · refine Or.inl ?_
            rw [if_pos hmem]
            exact hk ▸ hmem
          · refine Or.inl ?_
            rw [if_neg hmem]
            refine List.mem_append_right _ ?_
            simp [hk]
        · exact Or.inr ⟨sp2, hsp2, hk⟩

theorem mem_seenKeys (original : List Char) (spans : List Span) (sp : Span)
    (h : sp ∈ spans) : keyOf original sp ∈ seenKeys original spans := by
  unfold seenKeys
  rw [mem_seenKeys_fold original spans [] (keyOf original sp)]
  exact Or.inr ⟨sp, h, rfl⟩

/-- C3: during placeholder assignment over the sorted merged spans the
artifacts are exactly the spans decorated with the entity-map placeholder of
their `(type, trimmed lowercase value)` key; a key first seen gets
`"{type}_{counter}"` where the counter is one plus the number of distinct
keys of the same type seen before it (so each type's counter starts at 1 and
increments independently); and equal keys receive the identical placeholder
string. -/
theorem replace_placeholder_assignment (original : List Char)
    (spans : List Span) :
    ((replaceSpans original spans).artifacts =
      spans.map fun sp =>
        ⟨sp.1, pySlice original sp.2.1 sp.2.2,
         (alookup (keyOf original sp) (pass1 original spans).2).getD []⟩) ∧
    (∀ sp ∈ spans,
      alookup (keyOf original sp) (pass1 original spans).2 =
        some (placeholderStr sp.1 (keyRank original spans (keyOf original sp)))) ∧
    (∀ t, (alookup t (pass1 original spans).1).getD 0 =
      ((seenKeys original spans).filter fun k2 => decide (k2.1 = t)).length) ∧
    (∀ sp1 ∈ spans, ∀ sp2 ∈ spans,
      keyOf original sp1 = keyOf original sp2 →
      (alookup (keyOf original sp1) (pass1 original spans).2).getD [] =
        (alookup (keyOf original sp2) (pass1 original spans).2).getD []) := by
  refine ⟨pass2_artifacts original (pass1 original spans).2 spans, ?_, ?_, ?_⟩
  · intro sp hsp
    rw [pass1_entityMap original spans (keyOf original sp),
      if_pos (mem_seenKeys original spans sp hsp)]
    rfl
  · exact pass1_counters original spans
  · intro sp1 _ sp2 _ heq
    rw [heq]

/-- Witness for C3: in `"ab cd ab"` with spans for both `"ab"` occurrences
and the `"cd"` occurrence, the second `"ab"` span's key resolves to the
placeholder of its first-seen rank. -/
theorem replace_placeholder_assignment_witness :
    alookup (keyOf "ab cd ab".toList (EntityType.PERSON, 6, 8))
        (pass1 "ab cd ab".toList
          [(EntityType.PERSON, 0, 2), (EntityType.ID, 3, 5),
           (EntityType.PERSON, 6, 8)]).2 =
      some (placeholderStr EntityType.PERSON
        (keyRank "ab cd ab".toList
          [(EntityType.PERSON, 0, 2), (EntityType.ID, 3, 5),
           (EntityType.PERSON, 6, 8)]
          (keyOf "ab cd ab".toList (EntityType.PERSON, 6, 8)))) :=
  (replace_placeholder_assignment "ab cd ab".toList
    [(EntityType.PERSON, 0, 2), (EntityType.ID, 3, 5),
     (EntityType.PERSON, 6, 8)]).2.1
    (EntityType.PERSON, 6, 8) (by decide)

/-! ### Dictionary detection (C6) -/

theorem occursAt_le {s w : List Char} {i : Nat} (h : occursAt s w i = true) :
    i + w.length ≤ s.length := by
  unfold occursAt at h
  rw [Bool.and_eq_true, decide_eq_true_eq, decide_eq_true_eq] at h
  exact h.1

theorem occursAt_take {s w : List Char} {i : Nat} (h : occursAt s w i = true) :
    (s.drop i).take w.length = w := by
  unfold occursAt at h
  rw [Bool.and_eq_true, decide_eq_true_eq, decide_eq_true_eq] at h
  exact h.2

theorem occursAt_false_of_len {s w : List Char} {i : Nat}
    (h : ¬ i + w.length ≤ s.length) : occursAt s w i = false := by
  unfold occursAt
  rw [decide_eq_false h, Bool.false_and]

theorem findOccAux_some (s w : List Char) :
    ∀ (fuel i idx : Nat), findOccAux s w fuel i = some idx →
      i ≤ idx ∧ occursAt s w idx = true ∧
        ∀ j, i ≤ j → j < idx → occursAt s w j = false
  | 0, i, idx => by
    intro h
    exact absurd h (by simp [findOccAux])
  | fuel + 1, i, idx => by
    intro h
    unfold findOccAux at h
    by_cases hlen : i + w.length ≤ s.length
    · rw [if_pos hlen] at h
      by_cases hocc : occursAt s w i = true
      · rw [if_pos hocc] at h
        cases h
        exact ⟨le_refl _, hocc, fun j h1 h2 => absurd (lt_of_le_of_lt h1 h2)
          (lt_irrefl _)⟩
      · rw [if_neg hocc] at h
        obtain ⟨h1, h2, h3⟩ := findOccAux_some s w fuel (i + 1) idx h
        refine ⟨by omega, h2, ?_⟩
        intro j hj1 hj2
        rcases Nat.eq_or_lt_of_le hj1 with rfl | hj3
        · exact Bool.eq_false_iff.mpr hocc
        · exact h3 j hj3 hj2
    · rw [if_neg hlen] at h
      exact absurd h (by simp)

theorem findOccAux_none (s w : List Char) :
    ∀ (fuel i : Nat), s.length + 1 - i ≤ fuel →
      findOccAux s w fuel i = none →
      ∀ j, i ≤ j → occursAt s w j = false
  | 0, i => by
    intro hfuel _ j hj
    exact occursAt_false_of_len (by omega)
  | fuel + 1, i => by
    intro hfuel h j hj
    unfold findOccAux at h
    by_cases hlen : i + w.length ≤ s.length
    · rw [if_pos hlen] at h
      by_cases hocc : occursAt s w i = true
      · rw [if_pos hocc] at h
        exact absurd h (by simp)
      · rw [if_neg hocc] at h
        rcases Nat.eq_or_lt_of_le hj with rfl | hj2
        · exact Bool.eq_false_iff.mpr hocc
        · exact findOccAux_none s w fuel (i + 1) (by omega) h j hj2
    · rw [if_neg hlen] at h
      exact occursAt_false_of_len (by omega)

theorem detectWordGo_mem (s w : List Char) :
    ∀ (fuel start : Nat), s.length + 1 - start ≤ fuel →
      ∀ d, (d ∈ detectWordGo s w fuel start ↔
        ∃ i, start ≤ i ∧ occursAt s w i = true ∧
          boundaryOk s i (i + w.length) = true ∧
          d = ⟨.PERSON, i, i + w.length⟩)
  | 0, start => by
    intro hfuel d
    simp only [detectWordGo, List.not_mem_nil, false_iff]
    rintro ⟨i, hge, hocc, _, _⟩
    have := occursAt_le hocc
    omega
  | fuel + 1, start => by
    intro hfuel d
    unfold detectWordGo
    match hfind : findOcc s w start with
    | none =>
      simp only [List.not_mem_nil, false_iff]
      rintro ⟨i, hge, hocc, _, _⟩
      have := findOccAux_none s w (s.length + 1 - start) start (le_refl _)
        hfind i hge
      rw [hocc] at this
      exact Bool.true_eq_false.mp this
    | some idx =>
      obtain ⟨hge0, hocc0, hmin⟩ := findOccAux_some s w _ _ _ hfind
      have hidxlen : idx + w.length ≤ s.length := occursAt_le hocc0
      have hih := detectWordGo_mem s w fuel (idx + 1) (by omega)
      rw [List.mem_append, hih d]
      constructor
      · rintro (hd | ⟨i, hge, hocc, hbnd, hde⟩)
        · by_cases hb : boundaryOk s idx (idx + w.length) = true
          · rw [if_pos hb] at hd
            simp only [List.mem_singleton] at hd
            exact ⟨idx, hge0, hocc0, hb, hd⟩
          · rw [if_neg hb] at hd
            exact absurd hd (List.not_mem_nil d)
        · exact ⟨i, by omega, hocc, hbnd, hde⟩
      · rintro ⟨i, hge, hocc, hbnd, hde⟩
        rcases Nat.lt_trichotomy i idx with hlt | rfl | hgt
        · have := hmin i hge hlt
          rw [hocc] at this
          exact absurd this (by simp)
        · refine Or.inl ?_
          rw [if_pos hbnd]
          simp [hde]
        · exact Or.inr ⟨i, by omega, hocc, hbnd, hde⟩

theorem detectWord_mem (s w : List Char) (d : Detection) :
    d ∈ detectWord s w ↔
      ∃ i, occursAt s w i = true ∧
        boundaryOk s i (i + w.length) = true ∧
        d = ⟨.PERSON, i, i + w.length⟩ := by
  rw [detectWord, detectWordGo_mem s w (s.length + 1) 0 (by omega) d]
  constructor
  · rintro ⟨i, _, hocc, hbnd, hde⟩
    exact ⟨i, hocc, hbnd, hde⟩
  · rintro ⟨i, hocc, hbnd, hde⟩
    exact ⟨i, Nat.zero_le i, hocc, hbnd, hde⟩

theorem detectDictionary_mem (s : List Char) (ws : List (List Char))
    (d : Detection) :
    d ∈ detectDictionary s ws ↔
      ∃ w ∈ ws, w ≠ [] ∧ ∃ i, occursAt s w i = true ∧
        boundaryOk s i (i + w.length) = true ∧
        d = ⟨.PERSON, i, i + w.length⟩ := by
  unfold detectDictionary
  by_cases hws : ws = []
  · subst hws
    simp
  · rw [if_neg hws, List.mem_flatMap]
    constructor
    · rintro ⟨w, hw, hd⟩
      by_cases hwe : w = []
      · rw [if_pos hwe] at hd
        exact absurd hd (List.not_mem_nil d)
      · rw [if_neg hwe] at hd
        exact ⟨w, hw, hwe, (detectWord_mem s w d).mp hd⟩
    · rintro ⟨w, hw, hwe, hex⟩
      refine ⟨w, hw, ?_⟩
      rw [if_neg hwe]
      exact (detectWord_mem s w d).mpr hex

theorem occursAt_char {s w : List Char} {i : Nat} (h : occursAt s w i = true)
    (k : Nat) (hk : k < w.length) : s.get? (i + k) = w.get? k := by
  have ht := occursAt_take h
  have h1 : w.get? k = ((s.drop i).take w.length).get? k := by rw [ht]
  rw [h1, List.get?_take hk, List.get?_drop]

/-- Two accepted occurrences of a purely alphanumeric token cannot overlap:
the character before the later occurrence would be a character of the token,
hence alphanumeric, and the boundary rule would have rejected it. -/
theorem accepted_no_overlap (s w : List Char)
    (halnum : ∀ c ∈ w, pyIsAlnum c = true) (idx i : Nat)
    (hocc : occursAt s w idx = true) (hlt : idx < i)
    (hlt2 : i < idx + w.length)
    (hbnd : boundaryOk s i (i + w.length) = true) : False := by
  have hk : i - 1 - idx < w.length := by omega
  have hchar := occursAt_char hocc (i - 1 - idx) hk
  have hidxk : idx + (i - 1 - idx) = i - 1 := by omega
  rw [hidxk] at hchar
  set c := w.get ⟨i - 1 - idx, hk⟩ with hcdef
  have hc : w.get? (i - 1 - idx) = some c := List.get?_eq_get hk
  have hcw : c ∈ w := List.get?_mem hc
  have hcd : s.getD (i - 1) ' ' = c := by
    rw [List.getD_eq_getElem?_getD, ← List.get?_eq_getElem?, hchar, hc]
    rfl
  unfold boundaryOk at hbnd
  rw [Bool.and_eq_true] at hbnd
  have h1 := hbnd.1
  rw [Bool.or_eq_true] at h1
  rcases h1 with h1 | h1
  · rw [decide_eq_true_eq] at h1
    omega
  · rw [hcd, halnum c hcw] at h1
    exact Bool.true_eq_false.mp ((Bool.not_eq_true' _).mp h1)

theorem detectWordGo_pairwise (s w : List Char)
    (halnum : ∀ c ∈ w, pyIsAlnum c = true) :
    ∀ (fuel start : Nat), s.length + 1 - start ≤ fuel →
      List.Pairwise (fun d1 d2 : Detection => d1.transEnd ≤ d2.transStart)
        (detectWordGo s w fuel start)
  | 0, start => fun _ => List.Pairwise.nil
  | fuel + 1, start => by
    intro hfuel
    unfold detectWordGo
    match hfind : findOcc s w start with
    | none => exact List.Pairwise.nil
    | some idx =>
      obtain ⟨hge0, hocc0, _⟩ := findOccAux_some s w _ _ _ hfind
      have hidxlen : idx + w.length ≤ s.length := occursAt_le hocc0
      rw [List.pairwise_append]
      refine ⟨?_, detectWordGo_pairwise s w halnum fuel (idx + 1) (by omega), ?_⟩
      · split
        · exact List.pairwise_singleton _ _
        · exact List.Pairwise.nil
      · intro d1 hd1 d2 hd2
        have hd1e : d1 = ⟨.PERSON, idx, idx + w.length⟩ := by
          split at hd1
          · simpa using hd1
          · exact absurd hd1 (List.not_mem_nil d1)
        obtain ⟨i, hge, hocc, hbnd, hde⟩ :=
          (detectWordGo_mem s w fuel (idx + 1) (by omega) d2).mp hd2
        subst hd1e
        subst hde
        show idx + w.length ≤ i
        by_contra hcon
        push_neg at hcon
        exact accepted_no_overlap s w halnum idx i hocc0 (by omega) hcon hbnd

theorem detectWord_alnum_pairwise (s w : List Char)
    (halnum : ∀ c ∈ w, pyIsAlnum c = true) :
    List.Pairwise (fun d1 d2 : Detection => d1.transEnd ≤ d2.transStart)
      (detectWord s w) :=
  detectWordGo_pairwise s w halnum (s.length + 1) 0 (by omega)

/-- C6 (amended): the dictionary detector emits a PERSON detection exactly
for the occurrences of each nonempty comparison token whose neighboring
characters (if any) are not alphanumeric — in particular a token occurring
only inside a longer alphanumeric word yields no detection; and for tokens
consisting solely of alphanumeric characters the detections emitted for a
single token are pairwise non-overlapping.  The unrestricted pairwise
non-overlap of the original claim fails for tokens with non-alphanumeric
interior characters (`detectDictionary_overlap_counterexample`). -/
theorem detectDictionary_spec (s : List Char) (ws : List (List Char)) :
    (∀ d, d ∈ detectDictionary s ws ↔
      ∃ w ∈ ws, w ≠ [] ∧ ∃ i, occursAt s w i = true ∧
        boundaryOk s i (i + w.length) = true ∧
        d = ⟨.PERSON, i, i + w.length⟩) ∧
    (∀ w, (∀ c ∈ w, pyIsAlnum c = true) →
      List.Pairwise (fun d1 d2 : Detection => d1.transEnd ≤ d2.transStart)
        (detectWord s w)) :=
  ⟨detectDictionary_mem s ws, fun w halnum => detectWord_alnum_pairwise s w halnum⟩

/-- Witness for C6 on a concrete text and token: both occurrences of `"ab"`
are found, with non-overlapping spans. -/
theorem detectDictionary_spec_witness :
    List.Pairwise (fun d1 d2 : Detection => d1.transEnd ≤ d2.transStart)
      (detectWord "x ab y ab".toList "ab".toList) ∧
    (⟨.PERSON, 2, 4⟩ : Detection) ∈
      detectDictionary "x ab y ab".toList ["ab".toList] :=
  ⟨(detectDictionary_spec "x ab y ab".toList ["ab".toList]).2 "ab".toList
    (by decide),
   ((detectDictionary_spec "x ab y ab".toList ["ab".toList]).1
    ⟨.PERSON, 2, 4⟩).mpr
    ⟨"ab".toList, by decide, by decide, 2, by decide, by decide, rfl⟩⟩

/-! ### Determinism over the unordered dictionary (C2)

Python's `sorted` is a stable sort by key; the stable insertion sort
(`sortSpans`) computes the same function.  Stability is exploited through
key-filter preservation: for every key the subsequence of key-`k` elements is
unchanged by sorting, and a sorted list is uniquely determined by its
key-filters. -/

theorem spanLe_of_key_eq {a b : Span} (h : spanKey a = spanKey b) :
    spanLe a b := by
  unfold spanKey at h
  rw [Prod.mk.injEq] at h
  exact Or.inr ⟨h.1, le_of_eq h.2.symm⟩

theorem key_eq_of_between {a b x : Span} (hab : spanLe a b) (hbx : spanLe b x)
    (hxa : spanKey x = spanKey a) : spanKey b = spanKey a := by
  unfold spanKey at hxa ⊢
  rw [Prod.mk.injEq] at hxa ⊢
  rcases hab with h1 | ⟨h1, h1e⟩ <;> rcases hbx with h2 | ⟨h2, h2e⟩ <;> omega

theorem filter_key_cons (k : Nat × Nat) (x : Span) (l : List Span) :
    (x :: l).filter (fun sp => decide (spanKey sp = k)) =
      if spanKey x = k
      then x :: l.filter (fun sp => decide (spanKey sp = k))
      else l.filter (fun sp => decide (spanKey sp = k)) := by
  rw [List.filter_cons]
  by_cases hx : spanKey x = k
  · rw [if_pos (by simp [hx]), if_pos hx]
  · rw [if_neg (by simp [hx]), if_neg hx]

theorem filter_orderedInsert (k : Nat × Nat) (x : Span) :
    ∀ l : List Span,
      (List.orderedInsert spanLe x l).filter
          (fun sp => decide (spanKey sp = k)) =
        if spanKey x = k
        then x :: l.filter (fun sp => decide (spanKey sp = k))
        else l.filter (fun sp => decide (spanKey sp = k))
  | [] => by
    simp only [List.orderedInsert, filter_key_cons, List.filter_nil]
  | y :: ys => by
    simp only [List.orderedInsert]
    by_cases hle : spanLe x y
    · rw [if_pos hle, filter_key_cons]
    · rw [if_neg hle, filter_key_cons, filter_orderedInsert k x ys,
        filter_key_cons]
      by_cases hy : spanKey y = k <;> by_cases hx : spanKey x = k
      · exact absurd (spanLe_of_key_eq (hx.trans hy.symm)) hle
      · rw [if_pos hy, if_neg hx, if_neg hx, if_pos hy]
      · rw [if_neg hy, if_pos hx, if_pos hx, if_neg hy]
      · rw [if_neg hy, if_neg hx, if_neg hx, if_neg hy]
  termination_by l => l.length

theorem filter_sortSpans (k : Nat × Nat) :
    ∀ l : List Span,
      (sortSpans l).filter (fun sp => decide (spanKey sp = k)) =
        l.filter (fun sp => decide (spanKey sp = k))
  | [] => rfl
  | x :: xs => by
    show (List.orderedInsert spanLe x (sortSpans xs)).filter _ = _
    rw [filter_orderedInsert k x (sortSpans xs), filter_sortSpans k xs,
      filter_key_cons]

theorem sorted_eq_of_filter_eq :
    ∀ l1 l2 : List Span,
      l1.Pairwise spanLe → l2.Pairwise spanLe →
      (∀ k : Nat × Nat,
        l1.filter (fun sp => decide (spanKey sp = k)) =
          l2.filter (fun sp => decide (spanKey sp = k))) →
      l1 = l2
  | [], [] => fun _ _ _ => rfl
  | [], b :: t2 => by
    intro _ _ hf
    have h := hf (spanKey b)
    rw [List.filter_nil, filter_key_cons, if_pos rfl] at h
    exact absurd h (by simp)
  | a :: t1, [] => by
    intro _ _ hf
    have h := hf (spanKey a)
    rw [List.filter_nil, filter_key_cons, if_pos rfl] at h
    exact absurd h (by simp)
  | a :: t1, b :: t2 => by
    intro h1 h2 hf
    rw [List.pairwise_cons] at h1 h2
    have hkey : spanKey a = spanKey b := by
      by_contra hne
      rcases IsTotal.total (r := spanLe) a b with hab | hba
      · have h := hf (spanKey a)
        have hb : ¬ spanKey b = spanKey a := fun hz => hne hz.symm
        rw [filter_key_cons, filter_key_cons, if_pos rfl, if_neg hb] at h
        have hnil : t2.filter (fun sp => decide (spanKey sp = spanKey a)) =
            [] := by
          rw [List.filter_eq_nil_iff]
          intro x hx
          simp only [decide_eq_true_eq]
          intro hxa
          exact hb (key_eq_of_between hab (h2.1 x hx) hxa)
        rw [hnil] at h
        exact absurd h (by simp)
      · have h := hf (spanKey b)
        have ha : ¬ spanKey a = spanKey b := hne
        rw [filter_key_cons, filter_key_cons, if_pos rfl, if_neg ha] at h
        have hnil : t1.filter (fun sp => decide (spanKey sp = spanKey b)) =
            [] := by
          rw [List.filter_eq_nil_iff]
          intro x hx
          simp only [decide_eq_true_eq]
          intro hxb
          exact ha (key_eq_of_between hba (h1.1 x hx) hxb)
        rw [hnil] at h
        exact absurd h (by simp)
    have hhead := hf (spanKey a)
    rw [filter_key_cons, filter_key_cons, if_pos rfl, if_pos hkey.symm]
      at hhead
    rw [List.cons.injEq] at hhead
    obtain ⟨rfl, htail⟩ := hhead
    have htails : ∀ k : Nat × Nat,
        t1.filter (fun sp => decide (spanKey sp = k)) =
          t2.filter (fun sp => decide (spanKey sp = k)) := by
      intro k
      by_cases hk : spanKey a = k
      · subst hk
        exact htail
      · have h := hf k
        rw [filter_key_cons, filter_key_cons, if_neg hk, if_neg hk] at h
        exact h
    rw [sorted_eq_of_filter_eq t1 t2 h1.2 h2.2 htails]

theorem detectDictionary_eq_flatMap (s : List Char) (ws : List (List Char)) :
    detectDictionary s ws =
      ws.flatMap (fun w => if w = [] then [] else detectWord s w) := by
  unfold detectDictionary
  cases ws with
  | nil => rfl
  | cons w ws => rw [if_neg (by simp)]

theorem normalizeDictionary_perm (nfc translit : List Char → List Char)
    {ws1 ws2 : List (List Char)} (h : ws1.Perm ws2) :
    (normalizeDictionary nfc translit ws1).Perm
      (normalizeDictionary nfc translit ws2) := by
  unfold normalizeDictionary
  exact (h.flatMap_right _).dedup

theorem detectDictionary_person (s : List Char) (ws : List (List Char)) :
    ∀ d ∈ detectDictionary s ws, d.entityType = .PERSON := by
  intro d hd
  obtain ⟨w, _, _, i, _, _, hde⟩ := (detectDictionary_mem s ws d).mp hd
  rw [hde]

theorem filterMap_person (m : List Nat) (l : List Detection)
    (hp : ∀ d ∈ l, d.entityType = .PERSON) :
    ∀ sp ∈ l.filterMap (fun d => (detectionToOriginalSpan d m).map
        fun se => (d.entityType, se.1, se.2)),
      sp.1 = EntityType.PERSON := by
  intro sp hsp
  rw [List.mem_filterMap] at hsp
  obtain ⟨d, hd, hfd⟩ := hsp
  rw [Option.map_eq_some'] at hfd
  obtain ⟨se, _, hsp2⟩ := hfd
  rw [← hsp2]
  exact hp d hd

theorem span_eq_of_key {sp : Span} (hp : sp.1 = EntityType.PERSON)
    {k : Nat × Nat} (hk : spanKey sp = k) :
    sp = (EntityType.PERSON, k.1, k.2) := by
  obtain ⟨t, s, e⟩ := sp
  simp only [spanKey] at hk
  simp only at hp
  subst hp
  rw [← hk]

theorem eq_of_all_eq {α : Type} (l1 l2 : List α) (a : α)
    (h1 : ∀ x ∈ l1, x = a) (h2 : ∀ x ∈ l2, x = a)
    (hl : l1.length = l2.length) : l1 = l2 := by
  rw [List.eq_replicate.mpr ⟨rfl, h1⟩, List.eq_replicate.mpr ⟨rfl, h2⟩, hl]

theorem mapToOriginal_perm (m : List Nat) (dict1 dict2 reg : List Detection)
    (hperm : dict1.Perm dict2)
    (hp1 : ∀ d ∈ dict1, d.entityType = .PERSON)
    (hp2 : ∀ d ∈ dict2, d.entityType = .PERSON) :
    mapToOriginal (dict1 ++ reg) m = mapToOriginal (dict2 ++ reg) m := by
  unfold mapToOriginal mergeOverlappingSpans
  suffices hs : sortSpans ((dict1 ++ reg).filterMap
      (fun d => (detectionToOriginalSpan d m).map
        fun se => (d.entityType, se.1, se.2))) =
      sortSpans ((dict2 ++ reg).filterMap
      (fun d => (detectionToOriginalSpan d m).map
        fun se => (d.entityType, se.1, se.2))) by
    rw [hs]
  apply sorted_eq_of_filter_eq _ _
    (List.sorted_insertionSort spanLe _) (List.sorted_insertionSort spanLe _)
  intro k
  have hsdef : ∀ l : List Span, List.insertionSort spanLe l = sortSpans l :=
    fun _ => rfl
  simp only [hsdef]
  rw [filter_sortSpans, filter_sortSpans, List.filterMap_append,
    List.filterMap_append, List.filter_append, List.filter_append]
  congr 1
  apply eq_of_all_eq _ _ (EntityType.PERSON, k.1, k.2)
  · intro x hx
    rw [List.mem_filter, decide_eq_true_eq] at hx
    exact span_eq_of_key (filterMap_person m dict1 hp1 x hx.1) hx.2
  · intro x hx
    rw [List.mem_filter, decide_eq_true_eq] at hx
    exact span_eq_of_key (filterMap_person m dict2 hp2 x hx.1) hx.2
  · exact ((hperm.filterMap _).filter _).length_eq

/-- C2: `anonymize` is deterministic with respect to the unordered
dictionary: two `sensitiveWords` sequences containing the same multiset of
words (any permutation — hence any iteration order of the internal
comparison-token hash set) produce identical `AnonymizationResult`s, in
particular identical placeholder numbering. -/
theorem anonymize_dict_perm (nfc translit : List Char → List Char)
    (ops : OpcodeSource) (text : List Char) {ws1 ws2 : List (List Char)}
    (h : ws1.Perm ws2) :
    anonymize nfc translit ops text ws1 = anonymize nfc translit ops text ws2 := by
  suffices hrun : run nfc translit ops text ws1 = run nfc translit ops text ws2 by
    unfold anonymize
    rw [hrun]
  unfold run
  by_cases ht : text = []
  · rw [if_pos ht, if_pos ht]
  · rw [if_neg ht, if_neg ht]
    simp only
    have hdictperm := normalizeDictionary_perm nfc translit h
    have hdetperm : (detectDictionary
        (transliterateWithMapping translit ops (nfc text)).1
        (normalizeDictionary nfc translit ws1)).Perm
        (detectDictionary (transliterateWithMapping translit ops (nfc text)).1
        (normalizeDictionary nfc translit ws2)) := by
      rw [detectDictionary_eq_flatMap, detectDictionary_eq_flatMap]
      exact hdictperm.flatMap_right _
    have hfullperm := hdetperm.append_right
      (detectRegex (transliterateWithMapping translit ops (nfc text)).1)
    by_cases hD : detectDictionary
        (transliterateWithMapping translit ops (nfc text)).1
        (normalizeDictionary nfc translit ws1) ++
        detectRegex (transliterateWithMapping translit ops (nfc text)).1 = []
    · have hD2 := (hD ▸ hfullperm).symm.eq_nil
      rw [if_pos hD, if_pos hD2]
    · have hD2 : ¬ (detectDictionary
          (transliterateWithMapping translit ops (nfc text)).1
          (normalizeDictionary nfc translit ws2) ++
          detectRegex (transliterateWithMapping translit ops (nfc text)).1
          = []) := by
        intro hz
        exact hD (hz ▸ hfullperm).eq_nil
      rw [if_neg hD, if_neg hD2]
      have hmap := mapToOriginal_perm
        (transliterateWithMapping translit ops (nfc text)).2
        _ _ (detectRegex (transliterateWithMapping translit ops (nfc text)).1)
        hdetperm
        (detectDictionary_person _ _)
        (detectDictionary_person _ _)
      rw [hmap]

/-- Witness for C2 at two concrete permuted dictionaries. -/
theorem anonymize_dict_perm_witness :
    anonymize (fun l => l) (fun l => l.map Char.toLower) (fun _ _ => [])
      "x ivan petro".toList ["petro".toList, "ivan".toList] =
    anonymize (fun l => l) (fun l => l.map Char.toLower) (fun _ _ => [])
      "x ivan petro".toList ["ivan".toList, "petro".toList] :=
  anonymize_dict_perm (fun l => l) (fun l => l.map Char.toLower)
    (fun _ _ => []) "x ivan petro".toList (by decide)

/-! ### Artifact provenance and ordering (C7) -/

theorem take_length_take {α : Type} (y : List α) (n : Nat) :
    y.take (y.take n).length = y.take n := by
  rw [List.length_take, List.take_eq_take]
  omega

theorem containsSub_pySlice (l : List Char) (s e : Nat) :
    containsSub l (pySlice l s e) = true := by
  unfold containsSub
  rw [List.any_eq_true]
  by_cases hs : s ≤ l.length
  · refine ⟨s, List.mem_range.mpr (by omega), ?_⟩
    unfold occursAt
    rw [Bool.and_eq_true, decide_eq_true_eq, decide_eq_true_eq]
    constructor
    · have h1 : (pySlice l s e).length = min e l.length - s := by
        unfold pySlice
        rw [List.length_drop, List.length_take]
      omega
    · show (l.drop s).take ((l.take e).drop s).length = (l.take e).drop s
      rw [List.drop_take]
      exact take_length_take (l.drop s) (e - s)
  · refine ⟨l.length, List.mem_range.mpr (by omega), ?_⟩
    have hnil : pySlice l s e = [] := by
      unfold pySlice
      apply List.drop_eq_nil_of_le
      rw [List.length_take]
      omega
    rw [hnil]
    unfold occursAt
    simp

theorem placeholderStr_ne_nil (t : EntityType) (n : Nat) :
    placeholderStr t n ≠ [] := by
  intro h
  have hlen : (placeholderStr t n).length = 0 := by rw [h]; rfl
  have h2 : (placeholderStr t n).length =
      (t.name ++ "_" ++ toString n).length := rfl
  rw [String.length_append, String.length_append] at h2
  have h3 : ("_" : String).length = 1 := rfl
  omega

theorem finditerGo_matchAt (matchAt : List Char → Nat → Option Nat)
    (s : List Char) :
    ∀ (fuel i : Nat) (pr : Nat × Nat),
      pr ∈ finditerGo matchAt s fuel i → matchAt s pr.1 = some pr.2
  | 0, i, pr => by
    intro h
    exact absurd h (List.not_mem_nil pr)
  | fuel + 1, i, pr => by
    intro h
    unfold finditerGo at h
    by_cases hi : i < s.length
    · rw [if_pos hi] at h
      match hm : matchAt s i with
      | some e =>
        rw [hm] at h
        rcases List.mem_cons.mp h with rfl | h2
        · exact hm
        · exact finditerGo_matchAt matchAt s fuel (max e (i + 1)) pr h2
      | none =>
        rw [hm] at h
        exact finditerGo_matchAt matchAt s fuel (i + 1) pr h
    · rw [if_neg hi] at h
      exact absurd h (List.not_mem_nil pr)

theorem emailMatchAt_lt {s : List Char} {i e2 : Nat}
    (h : emailMatchAt s i = some e2) : i < e2 := by
  unfold emailMatchAt at h
  dsimp only at h
  split at h
  · exact absurd h (by simp)
  · split at h
    · exact absurd h (by simp)
    · split at h
      · exact absurd h (by simp)
      · split at h
        · exact absurd h (by simp)
        · rename_i c2 _
          rw [Option.some.injEq] at h
          omega

theorem phoneMatchAt_lt {s : List Char} {i e2 : Nat}
    (h : phoneMatchAt s i = some e2) : i < e2 := by
  unfold phoneMatchAt at h
  dsimp only at h
  split at h
  · exact absurd h (by simp)
  · split at h
    all_goals
      split at h
      · exact absurd h (by simp)
      · split at h
        · exact absurd h (by simp)
        · split at h
          · exact absurd h (by simp)
          · rw [Option.some.injEq] at h
            omega

theorem idMatchAt_lt {s : List Char} {i e2 : Nat}
    (h : idMatchAt s i = some e2) : i < e2 := by
  unfold idMatchAt at h
  dsimp only at h
  split at h
  · exact absurd h (by simp)
  · match hfind : (List.range (min (runLen pyIsDigit s i) 20 + 1)).reverse.find?
        (fun c => decide (6 ≤ c) &&
          (decide (i + c = s.length) || !pyIsWord (s.getD (i + c) ' '))) with
    | none =>
      rw [hfind] at h
      exact absurd h (by simp)
    | some c =>
      rw [hfind] at h
      rw [Option.some.injEq] at h
      have hp := List.find?_some hfind
      rw [Bool.and_eq_true, decide_eq_true_eq] at hp
      omega

theorem detectRegex_lt (s : List Char) :
    ∀ d ∈ detectRegex s, d.transStart < d.transEnd := by
  intro d hd
  unfold detectRegex regexRules at hd
  rw [List.mem_flatMap] at hd
  obtain ⟨rule, hrule, hd2⟩ := hd
  rw [List.mem_map] at hd2
  obtain ⟨pr, hpr, hde⟩ := hd2
  subst hde
  show pr.1 < pr.2
  have hm := finditerGo_matchAt rule.2 s s.length 0 pr hpr
  simp only [List.mem_cons, List.not_mem_nil, or_false] at hrule
  rcases hrule with rfl | rfl | rfl
  · exact emailMatchAt_lt hm
  · exact phoneMatchAt_lt hm
  · exact idMatchAt_lt hm

theorem detectDictionary_lt (s : List Char) (ws : List (List Char)) :
    ∀ d ∈ detectDictionary s ws, d.transStart < d.transEnd := by
  intro d hd
  obtain ⟨w, _, hw, i, _, _, hde⟩ := (detectDictionary_mem s ws d).mp hd
  subst hde
  show i < i + w.length
  have : w.length ≠ 0 := fun hz => hw (List.length_eq_zero.mp hz)
  omega

theorem chain'_le_getD {m : List Nat} (hc : List.Chain' (· ≤ ·) m)
    {i j : Nat} (hij : i ≤ j) (hj : j < m.length) :
    m.getD i 0 ≤ m.getD j 0 := by
  rcases Nat.eq_or_lt_of_le hij with rfl | hlt
  · exact le_refl _
  · have hi : i < m.length := lt_trans hlt hj
    rw [List.getD_eq_getElem _ _ hi, List.getD_eq_getElem _ _ hj]
    rw [List.chain'_iff_pairwise] at hc
    rw [List.pairwise_iff_get] at hc
    exact hc ⟨i, hi⟩ ⟨j, hj⟩ hlt

theorem mergeLoop_wf (bound : Nat) :
    ∀ (rest acc : List Span),
      (∀ sp ∈ rest, sp.2.1 ≤ sp.2.2 ∧ sp.2.2 ≤ bound) →
      (∀ sp ∈ acc, sp.2.1 ≤ sp.2.2 ∧ sp.2.2 ≤ bound) →
      ∀ sp ∈ mergeLoop acc rest, sp.2.1 ≤ sp.2.2 ∧ sp.2.2 ≤ bound
  | [], acc => by
    intro _ hacc sp hsp
    rw [mergeLoop_nil] at hsp
    exact hacc sp (List.mem_reverse.mp hsp)
  | sp0 :: rest, acc => by
    intro hrest hacc sp hsp
    obtain ⟨t, s, e⟩ := sp0
    have hh := hrest (t, s, e) (List.mem_cons_self _ _)
    have hrest2 : ∀ sp ∈ rest, sp.2.1 ≤ sp.2.2 ∧ sp.2.2 ≤ bound :=
      fun sp2 hsp2 => hrest sp2 (List.mem_cons_of_mem _ hsp2)
    match acc with
    | [] =>
      rw [mergeLoop_emp] at hsp
      refine mergeLoop_wf bound rest [(t, s, e)] hrest2 ?_ sp hsp
      intro sp2 hsp2
      simp only [List.mem_singleton] at hsp2
      subst hsp2
      exact hh
    | (pt, ps, pe) :: accTail =>
      rw [mergeLoop_cons] at hsp
      have hph := hacc (pt, ps, pe) (List.mem_cons_self _ _)
      simp only at hph hh
      split at hsp
      · refine mergeLoop_wf bound rest ((pt, ps, max pe e) :: accTail)
          hrest2 ?_ sp hsp
        intro sp2 hsp2
        rcases List.mem_cons.mp hsp2 with rfl | hsp2
        · simp only
          omega
        · exact hacc sp2 (List.mem_cons_of_mem _ hsp2)
      · refine mergeLoop_wf bound rest ((t, s, e) :: (pt, ps, pe) :: accTail)
          hrest2 ?_ sp hsp
        intro sp2 hsp2
        rcases List.mem_cons.mp hsp2 with rfl | hsp2
        · exact hh
        · exact hacc sp2 hsp2

theorem mergeOverlappingSpans_wf (bound : Nat) (spans : List Span)
    (h : ∀ sp ∈ spans, sp.2.1 ≤ sp.2.2 ∧ sp.2.2 ≤ bound) :
    ∀ sp ∈ mergeOverlappingSpans spans, sp.2.1 ≤ sp.2.2 ∧ sp.2.2 ≤ bound :=
  mergeLoop_wf bound (sortSpans spans) []
    (fun sp hsp => h sp ((List.perm_insertionSort spanLe spans).mem_iff.mp hsp))
    (by simp)

theorem rawSpan_wf (m : List Nat) (bound : Nat)
    (hchain : List.Chain' (· ≤ ·) m) (hbnd : ∀ x ∈ m, x < bound)
    (detections : List Detection)
    (hlt : ∀ d ∈ detections, d.transStart < d.transEnd) :
    ∀ sp ∈ detections.filterMap (fun d => (detectionToOriginalSpan d m).map
        fun se => (d.entityType, se.1, se.2)),
      sp.2.1 ≤ sp.2.2 ∧ sp.2.2 ≤ bound := by
  intro sp hsp
  rw [List.mem_filterMap] at hsp
  obtain ⟨d, hd, hfd⟩ := hsp
  rw [Option.map_eq_some'] at hfd
  obtain ⟨se, hspan, hsp2⟩ := hfd
  subst hsp2
  unfold detectionToOriginalSpan at hspan
  split at hspan
  · exact absurd hspan (by simp)
  · rename_i hguard
    simp only [Bool.or_eq_true, decide_eq_true_eq, ge_iff_le] at hguard
    push_neg at hguard
    obtain ⟨hts, hte⟩ := hguard
    rw [Option.some.injEq] at hspan
    have hdlt := hlt d hd
    have hj : min (d.transEnd - 1) (m.length - 1) < m.length := by omega
    have htsj : d.transStart ≤ min (d.transEnd - 1) (m.length - 1) := by omega
    have hmono := chain'_le_getD hchain htsj hj
    have hjb : m.getD (min (d.transEnd - 1) (m.length - 1)) 0 < bound := by
      rw [List.getD_eq_getElem _ _ hj]
      exact hbnd _ (List.getElem_mem hj)
    subst hspan
    simp only
    omega

theorem replPositions_off :
    ∀ (l : List (Nat × Nat × List Char)) (off cur : Nat),
      replPositions off cur l = (replPositions 0 cur l).map (off + ·)
  | [], _, _ => rfl
  | (s, e, p) :: rest, off, cur => by
    simp only [replPositions, List.map_cons]
    refine congrArg₂ List.cons (by omega) ?_
    rw [replPositions_off rest (off + (s - cur) + p.length) e,
      replPositions_off rest (0 + (s - cur) + p.length) e, List.map_map]
    congr 1
    funext q
    simp only [Function.comp_apply]
    omega

theorem piecewise_marks (text : List Char) :
    ∀ (l : List (Nat × Nat × List Char)) (cur : Nat),
      List.Chain' (fun a b => a.2.1 ≤ b.1) l →
      (∀ x ∈ l, x.1 ≤ x.2.1 ∧ x.2.1 ≤ text.length) →
      (∀ x ∈ l.head?, cur ≤ x.1) →
      (∀ x ∈ l, x.2.2 ≠ []) →
      List.Chain' (· < ·) (replPositions 0 cur l) ∧
      List.Forall₂ (fun q pr =>
        ((piecewise text cur l).drop q).take pr.2.2.length = pr.2.2)
        (replPositions 0 cur l) l
  | [], cur => fun _ _ _ _ => ⟨List.chain'_nil, List.Forall₂.nil⟩
  | (s, e, p) :: rest, cur => by
    intro hchain hbnd hcur hne
    have hcs : cur ≤ s := hcur (s, e, p) rfl
    have hbh := hbnd (s, e, p) (List.mem_cons_self _ _)
    simp only at hbh
    rw [List.chain'_cons'] at hchain
    have hrestbnd : ∀ x ∈ rest, x.1 ≤ x.2.1 ∧ x.2.1 ≤ text.length :=
      fun x hx => hbnd x (List.mem_cons_of_mem _ hx)
    have hrestne : ∀ x ∈ rest, x.2.2 ≠ [] :=
      fun x hx => hne x (List.mem_cons_of_mem _ hx)
    have hhead : ∀ x ∈ rest.head?, e ≤ x.1 := hchain.1
    obtain ⟨ihchain, ihmarks⟩ :=
      piecewise_marks text rest e hchain.2 hrestbnd hhead hrestne
    have hplen : 1 ≤ p.length :=
      List.length_pos.mpr (hne (s, e, p) (List.mem_cons_self _ _))
    have hA : (pySlice text cur s).length = s - cur := by
      unfold pySlice
      rw [List.length_drop, List.length_take]
      omega
    have hsplit : piecewise text cur ((s, e, p) :: rest) =
        (pySlice text cur s ++ p) ++ piecewise text e rest := rfl
    have hrp : replPositions 0 cur ((s, e, p) :: rest) =
        (s - cur) :: (replPositions 0 e rest).map
          (fun q => (s - cur) + p.length + q) := by
      show (0 + (s - cur)) :: replPositions (0 + (s - cur) + p.length) e rest = _
      rw [replPositions_off rest (0 + (s - cur) + p.length) e]
      refine congrArg₂ List.cons (by omega) ?_
      congr 1
      funext q
      omega
    rw [hrp, hsplit]
    constructor
    · rw [List.chain'_cons']
      constructor
      · intro y hy
        rcases hrp2 : replPositions 0 e rest with _ | ⟨q0, qrest⟩
        · rw [hrp2] at hy
          simp at hy
        · rw [hrp2] at hy
          simp only [List.map_cons, List.head?_cons, Option.mem_def,
            Option.some.injEq] at hy
          omega
      · rw [List.chain'_map]
        exact ihchain.imp (fun a b hab => by omega)
    · refine List.Forall₂.cons ?_ ?_
      · rw [drop_append3 _ _ _ (s - cur) (by omega)]
        rw [← hA, List.drop_length]
        simp only [List.nil_append]
        exact List.take_left p (piecewise text e rest)
      · rw [List.forall₂_map_left_iff]
        refine ihmarks.imp ?_
        intro q pr hr
        have hlen2 : (pySlice text cur s ++ p).length = (s - cur) + p.length := by
          rw [List.length_append, hA]
        show (((pySlice text cur s ++ p) ++ piecewise text e rest).drop
          ((s - cur) + p.length + q)).take pr.2.2.length = pr.2.2
        rw [← List.drop_drop, ← hlen2, List.drop_left]
        exact hr

theorem replaceSpans_artifacts_spec (original : List Char) (spans : List Span)
    (hsd : List.Pairwise spanDisjointLe spans)
    (hwf : ∀ sp ∈ spans, sp.2.1 ≤ sp.2.2 ∧ sp.2.2 ≤ original.length) :
    (∀ a ∈ (replaceSpans original spans).artifacts,
      containsSub original a.original = true) ∧
    (∃ ps : List Nat, List.Chain' (· < ·) ps ∧
      List.Forall₂ (fun q (a : Artifact) =>
        (((replaceSpans original spans).anonymizedText).drop q).take
          a.replacement.length = a.replacement) ps
        (replaceSpans original spans).artifacts) := by
  have harts : (replaceSpans original spans).artifacts =
      spans.map fun sp =>
        ⟨sp.1, pySlice original sp.2.1 sp.2.2,
         (alookup (keyOf original sp) (pass1 original spans).2).getD []⟩ :=
    pass2_artifacts original (pass1 original spans).2 spans
  constructor
  · intro a ha
    rw [harts, List.mem_map] at ha
    obtain ⟨sp, _, rfl⟩ := ha
    exact containsSub_pySlice original sp.2.1 sp.2.2
  · have htext := replaceSpans_frame original spans hsd hwf
    have hmarks := piecewise_marks original
      (spansWithPlaceholders original (pass1 original spans).2 spans) 0
      (by
        unfold spansWithPlaceholders
        rw [List.chain'_map]
        exact List.Chain'.imp (fun a b hab => hab.2)
          (List.Pairwise.chain' hsd))
      (by
        unfold spansWithPlaceholders
        intro x hx
        rw [List.mem_map] at hx
        obtain ⟨sp, hsp, rfl⟩ := hx
        exact hwf sp hsp)
      (fun x _ => Nat.zero_le _)
      (by
        unfold spansWithPlaceholders
        intro x hx
        rw [List.mem_map] at hx
        obtain ⟨sp, hsp, rfl⟩ := hx
        show (alookup (keyOf original sp) (pass1 original spans).2).getD [] ≠ []
        rw [pass1_entityMap original spans (keyOf original sp),
          if_pos (mem_seenKeys original spans sp hsp)]
        exact placeholderStr_ne_nil _ _)
    obtain ⟨hchain, hfa⟩ := hmarks
    refine ⟨replPositions 0 0
      (spansWithPlaceholders original (pass1 original spans).2 spans),
      hchain, ?_⟩
    rw [harts, htext, List.forall₂_map_right_iff]
    unfold spansWithPlaceholders at hfa
    rw [List.forall₂_map_right_iff] at hfa
    exact hfa

/-- C7 (amended): every artifact's `original` is an exact substring of the
NFC-normalized input (hence of the input itself whenever the input is
already NFC-normal — the raw input may differ, see
`run_artifact_substring_counterexample`), and the artifacts appear in the
anonymized text left to right: there are strictly increasing positions, one
per artifact in order, at which the respective replacement occurs. -/
theorem run_artifacts_spec (nfc translit : List Char → List Char)
    (ops : OpcodeSource) (text : List Char) (dict : List (List Char)) :
    (∀ a ∈ (run nfc translit ops text dict).artifacts,
      containsSub (nfc text) a.original = true) ∧
    (∃ ps : List Nat, List.Chain' (· < ·) ps ∧
      List.Forall₂ (fun q (a : Artifact) =>
        (((run nfc translit ops text dict).anonymizedText).drop q).take
          a.replacement.length = a.replacement) ps
        (run nfc translit ops text dict).artifacts) := by
  by_cases ht : text = []
  · have h0 : (run nfc translit ops text dict).artifacts = [] := by
      simp [run, ht]
    constructor
    · intro a ha
      rw [h0] at ha
      exact absurd ha (List.not_mem_nil a)
    · exact ⟨[], List.chain'_nil, h0 ▸ List.Forall₂.nil⟩
  · unfold run
    rw [if_neg ht]
    simp only
    split
    · constructor
      · intro a ha
        exact absurd ha (List.not_mem_nil a)
      · exact ⟨[], List.chain'_nil, List.Forall₂.nil⟩
    · rename_i hD
      have hspec := transliterateWithMapping_spec translit ops (nfc text)
      have hlts : ∀ d ∈ detectDictionary
          (transliterateWithMapping translit ops (nfc text)).1
          (normalizeDictionary nfc translit dict) ++
          detectRegex (transliterateWithMapping translit ops (nfc text)).1,
          d.transStart < d.transEnd := by
        intro d hd
        rcases List.mem_append.mp hd with hd | hd
        · exact detectDictionary_lt _ _ d hd
        · exact detectRegex_lt _ d hd
      have hraw := rawSpan_wf
        (transliterateWithMapping translit ops (nfc text)).2
        (nfc text).length hspec.2.1 hspec.2.2.1 _ hlts
      have hwf := mergeOverlappingSpans_wf (nfc text).length _ hraw
      have hsd := (mergeOverlappingSpans_spec
        (List.filterMap
          (fun d =>
            (detectionToOriginalSpan d
              (transliterateWithMapping translit ops (nfc text)).2).map
              fun se => (d.entityType, se.1, se.2))
          (detectDictionary
            (transliterateWithMapping translit ops (nfc text)).1
            (normalizeDictionary nfc translit dict) ++
            detectRegex
              (transliterateWithMapping translit ops (nfc text)).1))).1
      exact replaceSpans_artifacts_spec (nfc text) _ hsd hwf

/-- C7 counterexample to the original claim: the artifacts' `original` fields
are sliced from the NFC-normalized text, not from the raw input. With the
decomposed input "ve" + U+0301 (combining acute), an NFC capability composing
it to "v" + U+00E9, a transliteration mapping the precomposed é to "e", and
dictionary ["ve"], the run yields an artifact whose `original` is the
two-character string "vé" (v, U+00E9) — which is not a substring of the
three-character raw input. -/
theorem run_artifact_substring_counterexample :
    ∃ a ∈ (run
      (fun l => if l = ['v', 'e', '́'] then ['v', 'é'] else l)
      (fun l => l.map fun c => if c = 'é' then 'e' else c)
      (fun _ _ => [])
      ['v', 'e', '́'] [['v', 'e']]).artifacts,
      containsSub ['v', 'e', '́'] a.original = false := by
  decide

end Anonymizer
